import Mathlib

/-!
Email line parser: `parser/parser.go`.

A shallow embedding of the parsing functions of `parser/parser.go` and the
properties of them that the specification states.

Modelling conventions.

* A Go `string` is modelled as the list of its code points (`List Char`), i.e.
  strings are taken to be valid UTF-8.  Every offset the source computes is the
  offset of a one-byte ASCII delimiter found by `strings.Index` or
  `strings.LastIndex`, and every slice is cut at such offsets, so slicing by
  code-point offsets yields the same substrings as the byte offsets of the source.
* An index expression or slice expression that would be out of range in Go
  (a run-time panic) is modelled by the result `none`.
* `commentDepth` is a Go `int`; it counts characters of the input and cannot
  overflow for a string that fits in memory, so it is modelled as a `Nat`.
-/

namespace EmailParser

/-- A Go string, as its list of code points. -/
abbrev Str := List Char

/-- The record `EmailParts`; the field `Error` is `*string` in the source, `none` being `nil`. -/
structure EmailParts where
  AddrSpec : Str
  DisplayName : Str
  Error : Option Str
deriving DecidableEq, Repr

/-- The helper `strPtr`: a non-nil pointer to the given string. -/
def strPtr (s : Str) : Option Str := some s

/-! ## Library functions of package `strings` and `unicode` -/

/-- The predicate `unicode.IsSpace`: the code points with the White_Space property. -/
def isSpace (r : Char) : Bool :=
  let n := r.toNat
  (0x09 ≤ n && n ≤ 0x0d) || n == 0x20 || n == 0x85 || n == 0xa0 || n == 0x1680 ||
  (0x2000 ≤ n && n ≤ 0x200a) || n == 0x2028 || n == 0x2029 || n == 0x202f ||
  n == 0x205f || n == 0x3000

/-- The function `strings.TrimSpace`: leading, then trailing white space removed. -/
def TrimSpace (s : Str) : Str :=
  ((s.dropWhile isSpace).reverse.dropWhile isSpace).reverse

/-- The function `strings.Index`: offset of the first occurrence of `substr` in `s`, or `-1`. -/
def Index : Str → Str → Int
  | [], substr => if substr = [] then 0 else -1
  | c :: t, substr =>
    if substr.isPrefixOf (c :: t) then 0
    else
      let r := Index t substr
      if r < 0 then -1 else r + 1

/-- The function `strings.LastIndex`: offset of the last occurrence of `substr` in `s`, or `-1`. -/
def LastIndex : Str → Str → Int
  | [], substr => if substr = [] then 0 else -1
  | c :: t, substr =>
    let r := LastIndex t substr
    if 0 ≤ r then r + 1
    else if substr.isPrefixOf (c :: t) then 0 else -1

/-- The function `strings.Contains`. -/
def Contains (s substr : Str) : Bool := decide (0 ≤ Index s substr)

/-- The call `strings.Replace(s, old, new, 1)`: the first occurrence of `old` replaced by
`new`; `s` itself when `old` equals `new` or does not occur. -/
def Replace (s old new : Str) : Str :=
  if old = new then s
  else
    let j := Index s old
    if j < 0 then s
    else s.take j.toNat ++ new ++ s.drop (j.toNat + old.length)

/-- The loop of `strings.Split` for a non-empty separator: cut at each successive
occurrence of `sep`; the fuel bounds the number of cuts. -/
def splitLoop (sep : Str) : Nat → Str → List Str
  | 0, s => [s]
  | fuel + 1, s =>
    let m := Index s sep
    if m < 0 then [s]
    else s.take m.toNat :: splitLoop sep fuel (s.drop (m.toNat + sep.length))

/-- The function `strings.Split`, for a non-empty separator (the source calls it with `"<"`). -/
def Split (s sep : Str) : List Str := splitLoop sep s.length s

/-- The slice expression `s[lo:hi]`; `none` when it is out of range. -/
def slice (s : Str) (lo hi : Int) : Option Str :=
  if 0 ≤ lo ∧ lo ≤ hi ∧ hi ≤ (s.length : Int) then
    some ((s.drop lo.toNat).take (hi.toNat - lo.toNat))
  else none

/-! ## The pattern `emailRegex` -/

/-- Regular expressions over code points, with character classes as predicates. -/
inductive Regex where
  | nothing : Regex
  | empty : Regex
  | cls (p : Char → Bool) : Regex
  | alt (a b : Regex) : Regex
  | seq (a b : Regex) : Regex
  | star (a : Regex) : Regex

namespace Regex

/-- Whether the expression matches the empty string. -/
def nullable : Regex → Bool
  | nothing => false
  | empty => true
  | cls _ => false
  | alt a b => nullable a || nullable b
  | seq a b => nullable a && nullable b
  | star _ => true

/-- The derivative of an expression by one character. -/
def deriv : Regex → Char → Regex
  | nothing, _ => nothing
  | empty, _ => nothing
  | cls p, c => if p c then empty else nothing
  | alt a b, c => alt (deriv a c) (deriv b c)
  | seq a b, c =>
    if nullable a then alt (seq (deriv a c) b) (deriv b c) else seq (deriv a c) b
  | star a, c => seq (deriv a c) (star a)

/-- Whether the expression matches the whole of the given string. -/
def rmatch : Regex → Str → Bool
  | r, [] => nullable r
  | r, c :: t => rmatch (deriv r c) t

/-- The repetition `a+`. -/
def plus (a : Regex) : Regex := seq a (star a)

/-- A literal character. -/
def chr (c : Char) : Regex := cls (fun r => r == c)

end Regex

/-- Membership of a code point in a list of inclusive ranges. -/
def inRanges (ranges : List (Nat × Nat)) (n : Nat) : Bool :=
  ranges.any (fun lh => lh.1 ≤ n && n ≤ lh.2)

/-- The ASCII members of the simple case-folding orbit of `r` (`unicode.SimpleFold`), `r` itself
apart: the other case of an ASCII letter, `S` and `s` for U+017F, `K` and `k` for U+212A. -/
def asciiFold (r : Char) : List Nat :=
  let n := r.toNat
  if 0x41 ≤ n && n ≤ 0x5a then [n + 0x20]
  else if 0x61 ≤ n && n ≤ 0x7a then [n - 0x20]
  else if n == 0x17f then [0x53, 0x73]
  else if n == 0x212a then [0x4b, 0x6b]
  else []

/-- A character class of ASCII ranges read under the flag `(?i)`: a character belongs to it
when it or a member of its case-folding orbit lies in one of the ranges. -/
def foldClass (ranges : List (Nat × Nat)) (r : Char) : Bool :=
  inRanges ranges r.toNat || (asciiFold r).any (inRanges ranges)

/-- The first character class of the pattern (the class of atom characters), under `(?i)`;
its items are `!`, `#` to `'`, `*`, `+`, `-`, `/` to `9`, `=`, `?`, `A` to `Z` and `^` to `~`. -/
def atext : Char → Bool :=
  foldClass [(0x21, 0x21), (0x23, 0x27), (0x2a, 0x2a), (0x2b, 0x2b), (0x2d, 0x2d),
    (0x2f, 0x39), (0x3d, 0x3d), (0x3f, 0x3f), (0x41, 0x5a), (0x5e, 0x7e)]

/-- The class `[!#-\[\]-~]` of the pattern, under `(?i)`. -/
def qtext : Char → Bool :=
  foldClass [(0x21, 0x21), (0x23, 0x5b), (0x5d, 0x7e)]

/-- The class `[\t -~]` of the pattern, under `(?i)`. -/
def qpair : Char → Bool :=
  foldClass [(0x09, 0x09), (0x20, 0x7e)]

/-- The class `[!-Z\^-~]` of the pattern, under `(?i)`. -/
def dtext : Char → Bool :=
  foldClass [(0x21, 0x5a), (0x5e, 0x7e)]

/-- The double quote character. -/
def dquote : Char := Char.ofNat 0x22

/-- The backslash character. -/
def backslash : Char := Char.ofNat 0x5c

/-- The sub-pattern `"(?:[!#-\[\]-~]|\\[\t -~])*"`: a quoted local part. -/
def quotedLocal : Regex :=
  .seq (.chr dquote)
    (.seq (.star (.alt (.cls qtext) (.seq (.chr backslash) (.cls qpair)))) (.chr dquote))

/-- The sub-pattern `A+(?:\.A+)*`, where `A` is the class `atext`: atoms joined by dots.
It occurs twice in the pattern, as local part and as domain. -/
def dotAtom : Regex :=
  .seq (.plus (.cls atext)) (.star (.seq (.chr '.') (.plus (.cls atext))))

/-- The sub-pattern `\[[!-Z\^-~]*\]`: a bracketed domain literal. -/
def domainLiteral : Regex :=
  .seq (.chr '[') (.seq (.star (.cls dtext)) (.chr ']'))

/-- The pattern of `emailRegex` between its anchors `^` and `$`:
`(quotedLocal|dotAtom)@(dotAtom|domainLiteral)`. -/
def emailRegexBody : Regex :=
  .seq (.alt quotedLocal dotAtom) (.seq (.chr '@') (.alt dotAtom domainLiteral))

/-- Whether `emailRegex` matches the span `[i, j)` of the text `t`.  The pattern is
`^body$` without the flag `m`: `^` holds only at the beginning of the text and `$` only at
its end. -/
def spanMatch (t : Str) (i j : Nat) : Bool :=
  i == 0 && j == t.length && emailRegexBody.rmatch ((t.take j).drop i)

/-- The spans `[i, j)` of a text of length `n` with `pos ≤ i ≤ j ≤ n`, leftmost start first. -/
def spansFrom (n pos : Nat) : List (Nat × Nat) :=
  (List.range' pos (n + 1 - pos)).flatMap fun i => (List.range' i (n + 1 - i)).map fun j => (i, j)

/-- One search of the regexp engine from offset `pos`: the leftmost span at which
`emailRegex` matches, if any. -/
def firstMatch (t : Str) (pos : Nat) : Option (Nat × Nat) :=
  (spansFrom t.length pos).find? fun ij => spanMatch t ij.1 ij.2

/-- The method `emailRegex.MatchString`: whether the text contains a match. -/
def MatchString (s : Str) : Bool := (firstMatch s 0).isSome

/-- The loop of `FindAllString`: successive non-overlapping matches from offset `pos`; after an
empty match the search resumes one character further.  (Go also discards an empty match that
directly follows a match; the pattern has no empty match, every match containing an `@`.) -/
def findAllLoop (t : Str) : Nat → Nat → List Str
  | 0, _ => []
  | fuel + 1, pos =>
    match firstMatch t pos with
    | none => []
    | some (i, j) => (t.take j).drop i :: findAllLoop t fuel (if j = pos then pos + 1 else j)

/-- The call `emailRegex.FindAllString(input, -1)`. -/
def FindAllString (input : Str) : List Str := findAllLoop input (input.length + 1) 0

/-! ## The functions of `parser.go` -/

/-- The loop of `removeComments` from a given state; the characters written to the builder
are the result. -/
def removeCommentsLoop (commentDepth : Nat) (inQuote : Bool) : Str → Str
  | [] => []
  | r :: rest =>
    if r = dquote ∧ commentDepth = 0 then
      r :: removeCommentsLoop commentDepth (!inQuote) rest
    else if r = '(' ∧ inQuote = false then
      removeCommentsLoop (commentDepth + 1) inQuote rest
    else if r = ')' ∧ inQuote = false ∧ commentDepth > 0 then
      removeCommentsLoop (commentDepth - 1) inQuote rest
    else if commentDepth = 0 then
      r :: removeCommentsLoop commentDepth inQuote rest
    else
      removeCommentsLoop commentDepth inQuote rest

/-- The function `removeComments`. -/
def removeComments (input : Str) : Str := removeCommentsLoop 0 false input

/-- The loop of `unescapeDisplayName` from a given state of the flag `escape`. -/
def unescapeLoop (escape : Bool) : Str → Str
  | [] => []
  | r :: rest =>
    if escape then r :: unescapeLoop false rest
    else if r = backslash then unescapeLoop true rest
    else r :: unescapeLoop escape rest

/-- The function `unescapeDisplayName`. -/
def unescapeDisplayName (name : Str) : Str := TrimSpace (unescapeLoop false name)

/-- The function `extractDisplayName`; `none` when a slice or index expression is out of range.
The two nested conditions of the source are one conjunction here. -/
def extractDisplayName (input addrSpec : Str) : Option Str :=
  let remaining := Replace input addrSpec []
  let remaining := removeComments remaining
  let start := Index remaining [dquote]
  let end_ := LastIndex remaining [dquote]
  if Contains remaining [dquote] = true ∧ end_ > start then
    match slice remaining (start + 1) end_ with
    | none => none
    | some name => some (unescapeDisplayName name)
  else
    match (Split remaining ['<'])[0]? with
    | none => none
    | some before => if before ≠ remaining then some (TrimSpace before) else some []

/-- The tail of `extractEmailAddress`: the last match of the pattern in the text, or `""`. -/
def lastBareMatch (input : Str) : Option Str :=
  let matches_ := FindAllString input
  if matches_.length > 0 then matches_[matches_.length - 1]? else some []

/-- The function `extractEmailAddress`; `none` when a slice or index expression is out of
range. -/
def extractEmailAddress (input : Str) : Option Str :=
  let input := TrimSpace input
  let input := removeComments input
  let start := Index input ['<']
  let end_ := Index input ['>']
  if start ≠ -1 ∧ end_ > start then
    match slice input (start + 1) end_ with
    | none => none
    | some sub =>
      let candidate := TrimSpace sub
      if MatchString candidate = true then some candidate else lastBareMatch input
  else lastBareMatch input

/-- The function `ParseLine`; `none` when a slice or index expression is out of range. -/
def ParseLine (line : Str) : Option EmailParts :=
  let line := TrimSpace line
  if line = [] then
    some { AddrSpec := [], DisplayName := [], Error := strPtr "empty line".toList }
  else
    match extractEmailAddress line with
    | none => none
    | some addrSpec =>
      match extractDisplayName line addrSpec with
      | none => none
      | some displayName =>
        if addrSpec = [] then
          some { AddrSpec := [], DisplayName := [],
                 Error := strPtr "no email address found".toList }
        else if MatchString addrSpec = false then
          some { AddrSpec := addrSpec, DisplayName := displayName,
                 Error := strPtr "invalid email format".toList }
        else
          some { AddrSpec := addrSpec, DisplayName := displayName, Error := none }


/-! ## Classes of input named by the specification -/

/-- An atom: a non-empty run of atom characters. -/
def isAtom (w : Str) : Prop := w ≠ [] ∧ ∀ c ∈ w, atext c = true

/-- Dot-atom form: atoms separated by single dots. -/
inductive DotAtom : Str → Prop
  | one {w : Str} : isAtom w → DotAtom w
  | more {w s : Str} : isAtom w → DotAtom s → DotAtom (w ++ '.' :: s)

/-- An address in unquoted dot-atom form: dot-atoms on both sides of a single `@`. -/
def DotAtomAddr (a : Str) : Prop := ∃ l d, DotAtom l ∧ DotAtom d ∧ a = l ++ '@' :: d

/-- Balanced parentheses: every initial segment has at least as many `(` as `)`, and the
totals are equal. -/
def balanced (b : Str) : Bool :=
  (b.inits.all fun p => decide (p.count ')' ≤ p.count '(')) &&
    decide (b.count '(' = b.count ')')

/-- Every character class of the expression admits only characters with the property `P`. -/
def allCls (P : Char → Prop) : Regex → Prop
  | .nothing => True
  | .empty => True
  | .cls p => ∀ c, p c = true → P c
  | .alt a b => allCls P a ∧ allCls P b
  | .seq a b => allCls P a ∧ allCls P b
  | .star a => allCls P a

/-! ## The regular-expression matcher -/

namespace Regex

theorem rmatch_nothing (s : Str) : rmatch nothing s = false := by
  induction s with
  | nil => rfl
  | cons c t ih => simpa [rmatch, deriv] using ih

theorem rmatch_empty (s : Str) : rmatch empty s = true ↔ s = [] := by
  cases s with
  | nil => simp [rmatch, nullable]
  | cons c t => simp [rmatch, deriv, rmatch_nothing]

theorem rmatch_cls (p : Char → Bool) (s : Str) :
    rmatch (cls p) s = true ↔ ∃ c, s = [c] ∧ p c = true := by
  cases s with
  | nil => simp [rmatch, nullable]
  | cons c t =>
    by_cases h : p c = true
    · simp only [rmatch, deriv, h, if_true, rmatch_empty]
      constructor
      · rintro rfl
        exact ⟨c, rfl, h⟩
      · rintro ⟨d, hd, -⟩
        simp only [List.cons.injEq] at hd
        exact hd.2
    · have hd : deriv (cls p) c = nothing := by simp [deriv, h]
      show rmatch (deriv (cls p) c) t = true ↔ _
      rw [hd, rmatch_nothing]
      constructor
      · intro hf
        exact absurd hf (by decide)
      · rintro ⟨d, hd, hp⟩
        simp only [List.cons.injEq] at hd
        obtain ⟨rfl, -⟩ := hd
        exact absurd hp h

theorem rmatch_alt (a b : Regex) (s : Str) :
    rmatch (alt a b) s = (rmatch a s || rmatch b s) := by
  induction s generalizing a b with
  | nil => simp [rmatch, nullable]
  | cons c t ih => simp [rmatch, deriv, ih]

theorem rmatch_seq (a b : Regex) (s : Str) :
    rmatch (seq a b) s = true ↔ ∃ t u, s = t ++ u ∧ rmatch a t = true ∧ rmatch b u = true := by
  induction s generalizing a with
  | nil =>
    simp only [rmatch, nullable, Bool.and_eq_true]
    constructor
    · rintro ⟨ha, hb⟩
      exact ⟨[], [], rfl, ha, hb⟩
    · rintro ⟨t, u, h, ha, hb⟩
      have h2 := List.append_eq_nil.1 h.symm
      obtain ⟨rfl, rfl⟩ := h2
      exact ⟨ha, hb⟩
  | cons c s ih =>
    have key : (∃ t u, c :: s = t ++ u ∧ rmatch a t = true ∧ rmatch b u = true) ↔
        ((nullable a = true ∧ rmatch (deriv b c) s = true) ∨
          ∃ t u, s = t ++ u ∧ rmatch (deriv a c) t = true ∧ rmatch b u = true) := by
      constructor
      · rintro ⟨t, u, h, ha, hb⟩
        cases t with
        | nil =>
          left
          simp only [List.nil_append] at h
          subst h
          exact ⟨ha, hb⟩
        | cons d t =>
          right
          simp only [List.cons_append, List.cons.injEq] at h
          obtain ⟨rfl, rfl⟩ := h
          exact ⟨t, u, rfl, ha, hb⟩
      · rintro (⟨ha, hb⟩ | ⟨t, u, rfl, ha, hb⟩)
        · exact ⟨[], c :: s, rfl, ha, hb⟩
        · exact ⟨c :: t, u, rfl, ha, hb⟩
    rw [key]
    by_cases hn : nullable a = true
    · have hd : deriv (seq a b) c = alt (seq (deriv a c) b) (deriv b c) := by
        simp [deriv, hn]
      show rmatch (deriv (seq a b) c) s = true ↔ _
      rw [hd, rmatch_alt, Bool.or_eq_true, ih]
      constructor
      · rintro (h | h)
        · exact Or.inr h
        · exact Or.inl ⟨hn, h⟩
      · rintro (⟨-, h⟩ | h)
        · exact Or.inr h
        · exact Or.inl h
    · have hd : deriv (seq a b) c = seq (deriv a c) b := by
        simp [deriv, hn]
      show rmatch (deriv (seq a b) c) s = true ↔ _
      rw [hd, ih]
      constructor
      · intro h
        exact Or.inr h
      · rintro (⟨h, -⟩ | h)
        · exact absurd h hn
        · exact h

theorem rmatch_seq_append {a b : Regex} {t u : Str} (ha : rmatch a t = true)
    (hb : rmatch b u = true) : rmatch (seq a b) (t ++ u) = true :=
  (rmatch_seq a b (t ++ u)).2 ⟨t, u, rfl, ha, hb⟩

theorem rmatch_star_nil (a : Regex) : rmatch (star a) [] = true := rfl

theorem rmatch_star_append {a : Regex} {t u : Str} (ha : rmatch a t = true)
    (hu : rmatch (star a) u = true) : rmatch (star a) (t ++ u) = true := by
  cases t with
  | nil => simpa using hu
  | cons c t =>
    show rmatch (seq (deriv a c) (star a)) (t ++ u) = true
    exact rmatch_seq_append ha hu

theorem rmatch_chr (c : Char) : rmatch (chr c) [c] = true := by
  simp [chr, rmatch_cls]

theorem rmatch_star_cls {p : Char → Bool} {w : Str} (h : ∀ c ∈ w, p c = true) :
    rmatch (star (cls p)) w = true := by
  induction w with
  | nil => rfl
  | cons c t ih =>
    have h1 : rmatch (cls p) [c] = true := (rmatch_cls p [c]).2 ⟨c, rfl, h c (by simp)⟩
    exact rmatch_star_append h1 (ih fun d hd => h d (by simp [hd]))

theorem rmatch_plus_cls {p : Char → Bool} {w : Str} (hne : w ≠ [])
    (h : ∀ c ∈ w, p c = true) : rmatch (plus (cls p)) w = true := by
  cases w with
  | nil => exact absurd rfl hne
  | cons c t =>
    have h1 : rmatch (cls p) [c] = true := (rmatch_cls p [c]).2 ⟨c, rfl, h c (by simp)⟩
    exact rmatch_seq_append h1 (rmatch_star_cls fun d hd => h d (by simp [hd]))

end Regex

/-! ## The anchored search -/

theorem spanMatch_iff (t : Str) (i j : Nat) :
    spanMatch t i j = true ↔ i = 0 ∧ j = t.length ∧ emailRegexBody.rmatch t = true := by
  unfold spanMatch
  constructor
  · intro h
    simp only [Bool.and_eq_true, beq_iff_eq] at h
    obtain ⟨⟨rfl, rfl⟩, h⟩ := h
    simpa using h
  · rintro ⟨rfl, rfl, h⟩
    simpa using h

theorem mem_spansFrom (n pos i j : Nat) :
    (i, j) ∈ spansFrom n pos ↔ pos ≤ i ∧ i ≤ j ∧ j ≤ n := by
  simp only [spansFrom, List.mem_flatMap, List.mem_map, List.mem_range', Prod.mk.injEq]
  constructor
  · rintro ⟨a, ⟨k, hk, rfl⟩, b, ⟨m, hm, rfl⟩, rfl, rfl⟩
    omega
  · rintro ⟨h1, h2, h3⟩
    exact ⟨i, ⟨i - pos, by omega, by omega⟩, j, ⟨j - i, by omega, by omega⟩, rfl, rfl⟩

theorem firstMatch_zero (t : Str) :
    firstMatch t 0 = if emailRegexBody.rmatch t = true then some (0, t.length) else none := by
  unfold firstMatch
  split_ifs with h
  · cases hf : (spansFrom t.length 0).find? fun ij => spanMatch t ij.1 ij.2 with
    | none =>
      rw [List.find?_eq_none] at hf
      have := hf (0, t.length) ((mem_spansFrom _ _ _ _).2 ⟨le_refl _, Nat.zero_le _, le_refl _⟩)
      exact absurd ((spanMatch_iff t 0 t.length).2 ⟨rfl, rfl, h⟩) this
    | some x =>
      have := List.find?_some hf
      obtain ⟨h1, h2, -⟩ := (spanMatch_iff t x.1 x.2).1 this
      obtain ⟨i, j⟩ := x
      simp only at h1 h2
      subst h1 h2
      rfl
  · rw [List.find?_eq_none]
    intro x _ hx
    exact h ((spanMatch_iff t x.1 x.2).1 hx).2.2

theorem firstMatch_pos (t : Str) (pos : Nat) (hpos : 0 < pos) : firstMatch t pos = none := by
  unfold firstMatch
  rw [List.find?_eq_none]
  rintro ⟨i, j⟩ hx hm
  have h1 := ((mem_spansFrom _ _ _ _).1 hx).1
  have h2 := ((spanMatch_iff t i j).1 hm).1
  omega

/-- `MatchString` decides whether the pattern between the anchors matches the whole text. -/
theorem MatchString_eq (s : Str) : MatchString s = emailRegexBody.rmatch s := by
  unfold MatchString
  rw [firstMatch_zero]
  cases h : emailRegexBody.rmatch s <;> simp

theorem findAllLoop_pos (t : Str) (fuel pos : Nat) (hpos : 0 < pos) :
    findAllLoop t fuel pos = [] := by
  cases fuel with
  | zero => rfl
  | succ f => simp [findAllLoop, firstMatch_pos t pos hpos]

/-- `FindAllString` finds the whole text when the pattern matches it, and nothing otherwise. -/
theorem FindAllString_eq (t : Str) :
    FindAllString t = if emailRegexBody.rmatch t = true then [t] else [] := by
  unfold FindAllString
  split_ifs with h
  · simp only [findAllLoop, firstMatch_zero, h, if_true, List.take_length, List.drop_zero]
    rw [findAllLoop_pos]
    split_ifs <;> omega
  · simp [findAllLoop, firstMatch_zero, h]

theorem lastBareMatch_eq (t : Str) :
    lastBareMatch t = some (if emailRegexBody.rmatch t = true then t else []) := by
  unfold lastBareMatch
  rw [FindAllString_eq]
  split_ifs with h <;> simp

/-! ## Characters of the classes -/

theorem atext_not_space (c : Char) (h : atext c = true) : isSpace c = false := by
  unfold atext foldClass inRanges asciiFold at h
  unfold isSpace
  generalize c.toNat = n at h ⊢
  simp only [List.any_cons, List.any_nil, Bool.or_false, Bool.or_eq_true, Bool.and_eq_true,
    decide_eq_true_eq, beq_iff_eq] at h
  simp only [Bool.or_eq_false_iff, Bool.and_eq_false_iff, decide_eq_false_iff_not,
    beq_eq_false_iff_ne, ne_eq]
  split_ifs at h <;> simp at h <;> omega

theorem atext_ne_dquote (c : Char) (h : atext c = true) : c ≠ dquote := by
  rintro rfl
  revert h
  decide

theorem atext_ne_lparen (c : Char) (h : atext c = true) : c ≠ '(' := by
  rintro rfl
  revert h
  decide

theorem atext_ne_rparen (c : Char) (h : atext c = true) : c ≠ ')' := by
  rintro rfl
  revert h
  decide

theorem atext_ne_lt (c : Char) (h : atext c = true) : c ≠ '<' := by
  rintro rfl
  revert h
  decide

theorem atext_ne_gt (c : Char) (h : atext c = true) : c ≠ '>' := by
  rintro rfl
  revert h
  decide

theorem atext_ne_at (c : Char) (h : atext c = true) : c ≠ '@' := by
  rintro rfl
  revert h
  decide

/-- The characters of an address in dot-atom form: atom characters, dots and `@`. -/
theorem addrChar_props (c : Char) (h : atext c = true ∨ c = '.' ∨ c = '@') :
    isSpace c = false ∧ c ≠ dquote ∧ c ≠ '(' ∧ c ≠ ')' ∧ c ≠ '<' ∧ c ≠ '>' := by
  rcases h with h | rfl | rfl
  · exact ⟨atext_not_space c h, atext_ne_dquote c h, atext_ne_lparen c h, atext_ne_rparen c h,
      atext_ne_lt c h, atext_ne_gt c h⟩
  · decide
  · decide

theorem dotAtom_ne_nil {s : Str} (h : DotAtom s) : s ≠ [] := by
  cases h with
  | one hw => exact hw.1
  | more hw _ => simp

theorem dotAtom_chars {s : Str} (h : DotAtom s) : ∀ c ∈ s, atext c = true ∨ c = '.' := by
  induction h with
  | one hw => exact fun c hc => Or.inl (hw.2 c hc)
  | more hw _ ih =>
    intro c hc
    simp only [List.mem_append, List.mem_cons] at hc
    rcases hc with hc | rfl | hc
    · exact Or.inl (hw.2 c hc)
    · exact Or.inr rfl
    · exact ih c hc

theorem dotAtom_no_at {s : Str} (h : DotAtom s) : '@' ∉ s := by
  intro hm
  rcases dotAtom_chars h _ hm with h1 | h1
  · exact absurd h1 (by decide)
  · exact absurd h1 (by decide)

/-- The tail `(\.A+)*` of the sub-pattern `dotAtom` matches what follows the first atom. -/
theorem dotAtom_split {s : Str} (h : DotAtom s) :
    ∃ w rest, s = w ++ rest ∧ isAtom w ∧
      (Regex.star (.seq (.chr '.') (.plus (.cls atext)))).rmatch rest = true := by
  induction h with
  | one hw => exact ⟨_, [], by simp, hw, rfl⟩
  | @more w s hw _ ih =>
    obtain ⟨w2, rest, rfl, hw2, hrest⟩ := ih
    refine ⟨w, '.' :: w2 ++ rest, by simp, hw, ?_⟩
    refine Regex.rmatch_star_append ?_ hrest
    exact Regex.rmatch_seq_append (t := ['.']) (Regex.rmatch_chr '.')
      (Regex.rmatch_plus_cls hw2.1 hw2.2)

theorem dotAtom_rmatch {s : Str} (h : DotAtom s) : dotAtom.rmatch s = true := by
  obtain ⟨w, rest, rfl, hw, hrest⟩ := dotAtom_split h
  exact Regex.rmatch_seq_append (Regex.rmatch_plus_cls hw.1 hw.2) hrest

theorem dotAtomAddr_rmatch {a : Str} (h : DotAtomAddr a) : emailRegexBody.rmatch a = true := by
  obtain ⟨l, d, hl, hd, rfl⟩ := h
  refine Regex.rmatch_seq_append ?_ ?_
  · rw [Regex.rmatch_alt, dotAtom_rmatch hl, Bool.or_true]
  · refine Regex.rmatch_seq_append (t := ['@']) (Regex.rmatch_chr '@') ?_
    rw [Regex.rmatch_alt, dotAtom_rmatch hd, Bool.true_or]

theorem dotAtomAddr_ne_nil {a : Str} (h : DotAtomAddr a) : a ≠ [] := by
  obtain ⟨l, d, -, -, rfl⟩ := h
  simp

theorem dotAtomAddr_has_at {a : Str} (h : DotAtomAddr a) : '@' ∈ a := by
  obtain ⟨l, d, -, -, rfl⟩ := h
  simp

theorem dotAtomAddr_chars {a : Str} (h : DotAtomAddr a) :
    ∀ c ∈ a, isSpace c = false ∧ c ≠ dquote ∧ c ≠ '(' ∧ c ≠ ')' ∧ c ≠ '<' ∧ c ≠ '>' := by
  obtain ⟨l, d, hl, hd, rfl⟩ := h
  intro c hc
  simp only [List.mem_append, List.mem_cons] at hc
  apply addrChar_props
  rcases hc with hc | rfl | hc
  · rcases dotAtom_chars hl c hc with h | h
    · exact Or.inl h
    · exact Or.inr (Or.inl h)
  · exact Or.inr (Or.inr rfl)
  · rcases dotAtom_chars hd c hc with h | h
    · exact Or.inl h
    · exact Or.inr (Or.inl h)

theorem dotAtomAddr_matchString {a : Str} (h : DotAtomAddr a) : MatchString a = true := by
  rw [MatchString_eq]
  exact dotAtomAddr_rmatch h

/-! ## Library functions -/

theorem TrimSpace_of_no_space (s : Str) (h : ∀ c ∈ s, isSpace c = false) : TrimSpace s = s := by
  have key : ∀ l : Str, (∀ c ∈ l, isSpace c = false) → l.dropWhile isSpace = l := by
    intro l hl
    cases l with
    | nil => rfl
    | cons c t => simp [List.dropWhile, hl c (by simp)]
  unfold TrimSpace
  rw [key s h, key s.reverse (fun c hc => h c (List.mem_reverse.1 hc)), List.reverse_reverse]

theorem TrimSpace_bracket (c d : Char) (m : Str) (hc : isSpace c = false)
    (hd : isSpace d = false) : TrimSpace (c :: (m ++ [d])) = c :: (m ++ [d]) := by
  simp [TrimSpace, List.dropWhile, hc, hd]

theorem isPrefixOf_iff (a s : Str) : a.isPrefixOf s = true ↔ a <+: s := by
  simp

/-- If `a` contains a character that `p` lacks, `a` does not start inside `p`. -/
theorem not_prefix_shift (x : Char) (r : Str) :
    ∀ (a p : Str), x ∈ a → x ∉ p → a <+: p ++ (a ++ r) → p = [] := by
  intro a
  induction a with
  | nil => intro p hx; simp at hx
  | cons y a ih =>
    intro p hx hp hpre
    cases p with
    | nil => rfl
    | cons q p =>
      exfalso
      simp only [List.cons_append, List.cons_prefix_cons] at hpre
      obtain ⟨rfl, hpre⟩ := hpre
      simp only [List.mem_cons, not_or] at hp hx
      have hxa : x ∈ a := by
        rcases hx with h | h
        · exact absurd h hp.1
        · exact h
      have h2 : a <+: (p ++ [y]) ++ (a ++ r) := by simpa using hpre
      have := ih (p ++ [y]) hxa (by simp [hp.1, hp.2]) h2
      simp at this

theorem Index_self_append (a r : Str) : Index (a ++ r) a = 0 := by
  cases h : a ++ r with
  | nil =>
    have := List.append_eq_nil.1 h
    simp [Index, this.1]
  | cons c t =>
    have : a.isPrefixOf (c :: t) = true := by
      rw [← h]
      simp
    simp [Index, this]

/-- The first occurrence of `a` in `p ++ a ++ r` is at offset `|p|` when `a` contains a
character that `p` lacks. -/
theorem Index_append (x : Char) (a r : Str) (hx : x ∈ a) :
    ∀ p : Str, x ∉ p → Index (p ++ (a ++ r)) a = p.length := by
  intro p
  induction p with
  | nil => intro _; simpa using Index_self_append a r
  | cons q p ih =>
    intro hp
    have hq : x ∉ p := fun h => hp (List.mem_cons_of_mem _ h)
    have hnp : a.isPrefixOf (q :: (p ++ (a ++ r))) = false := by
      rw [Bool.eq_false_iff]
      intro hpre
      have := not_prefix_shift x r a (q :: p) hx hp (by simpa using hpre)
      simp at this
    show Index (q :: (p ++ (a ++ r))) a = _
    simp only [Index, hnp, ih hq, List.length_cons]
    simp

theorem Index_char (c : Char) (p r : Str) (hp : c ∉ p) :
    Index (p ++ c :: r) [c] = p.length := by
  have := Index_append c [c] r (by simp) p hp
  simpa using this

theorem Index_char_none (c : Char) (s : Str) (h : c ∉ s) : Index s [c] = -1 := by
  induction s with
  | nil => simp [Index]
  | cons d t ih =>
    simp only [List.mem_cons, not_or] at h
    have hne : ([c] : Str).isPrefixOf (d :: t) = false := by
      rw [Bool.eq_false_iff]
      intro hpre
      simp at hpre
      exact h.1 hpre
    simp [Index, hne, ih h.2]

theorem LastIndex_char_none (c : Char) (s : Str) (h : c ∉ s) : LastIndex s [c] = -1 := by
  induction s with
  | nil => simp [LastIndex]
  | cons d t ih =>
    simp only [List.mem_cons, not_or] at h
    have hne : ([c] : Str).isPrefixOf (d :: t) = false := by
      rw [Bool.eq_false_iff]
      intro hpre
      simp at hpre
      exact h.1 hpre
    simp [LastIndex, hne, ih h.2]

theorem LastIndex_char (c : Char) (p r : Str) (hr : c ∉ r) :
    LastIndex (p ++ c :: r) [c] = p.length := by
  induction p with
  | nil => simp [LastIndex, LastIndex_char_none c r hr]
  | cons q p ih =>
    show LastIndex (q :: (p ++ c :: r)) [c] = _
    simp only [LastIndex, ih, List.length_cons]
    simp

theorem slice_middle (s p m r : Str) (lo hi : Int) (hs : s = p ++ (m ++ r))
    (hlo : lo = p.length) (hhi : hi = p.length + m.length) : slice s lo hi = some m := by
  subst hs hlo hhi
  unfold slice
  have h1 : (0 : Int) ≤ p.length ∧ (p.length : Int) ≤ p.length + m.length ∧
      ((p.length : Int) + m.length) ≤ ((p ++ (m ++ r)).length : Int) := by
    simp only [List.length_append, Nat.cast_add]
    omega
  rw [if_pos h1]
  have h2 : ((p.length : Int) + m.length).toNat - (p.length : Int).toNat = m.length := by
    omega
  rw [h2]
  simp

theorem Replace_middle (x : Char) (p a r : Str) (hx : x ∈ a) (hp : x ∉ p) :
    Replace (p ++ (a ++ r)) a [] = p ++ r := by
  have hne : a ≠ [] := by
    rintro rfl
    simp at hx
  unfold Replace
  rw [if_neg hne]
  simp only [Index_append x a r hx p hp]
  have : ¬ ((p.length : Int) < 0) := by omega
  rw [if_neg this]
  simp

theorem Split_head (s sep : Str) :
    (Split s sep)[0]? =
      some (if Index s sep < 0 then s else s.take (Index s sep).toNat) := by
  unfold Split
  cases h : s.length with
  | zero =>
    have hs : s = [] := List.length_eq_zero.1 h
    subst hs
    by_cases hsep : sep = [] <;> simp [splitLoop, Index, hsep]
  | succ n =>
    simp only [splitLoop]
    split_ifs <;> simp

/-! ## The scanning loops -/

theorem removeCommentsLoop_outside (s rest : Str) (h : ∀ c ∈ s, c ≠ dquote ∧ c ≠ '(') :
    removeCommentsLoop 0 false (s ++ rest) = s ++ removeCommentsLoop 0 false rest := by
  induction s with
  | nil => rfl
  | cons c t ih =>
    have hc := h c (by simp)
    simp [removeCommentsLoop, hc.1, hc.2, ih (fun d hd => h d (by simp [hd]))]

theorem removeCommentsLoop_quoted (s rest : Str) (h : ∀ c ∈ s, c ≠ dquote) :
    removeCommentsLoop 0 true (s ++ rest) = s ++ removeCommentsLoop 0 true rest := by
  induction s with
  | nil => rfl
  | cons c t ih =>
    have hc := h c (by simp)
    simp [removeCommentsLoop, hc, ih (fun d hd => h d (by simp [hd]))]

theorem removeComments_plain (s : Str) (h : ∀ c ∈ s, c ≠ dquote ∧ c ≠ '(') :
    removeComments s = s := by
  have := removeCommentsLoop_outside s [] h
  simpa [removeComments, removeCommentsLoop] using this

theorem unescapeLoop_plain (s : Str) (h : ∀ c ∈ s, c ≠ backslash) :
    unescapeLoop false s = s := by
  induction s with
  | nil => rfl
  | cons c t ih =>
    have hc := h c (by simp)
    simp [unescapeLoop, hc, ih (fun d hd => h d (by simp [hd]))]

/-! ## Slices and index expressions stay in range -/

theorem Index_bounds (s sub : Str) :
    Index s sub = -1 ∨ (0 ≤ Index s sub ∧ Index s sub + sub.length ≤ s.length) := by
  induction s with
  | nil =>
    by_cases h : sub = []
    · subst h
      right
      simp [Index]
    · left
      simp [Index, h]
  | cons c t ih =>
    by_cases hp : sub.isPrefixOf (c :: t) = true
    · right
      have hle : sub.length ≤ (c :: t).length := ((isPrefixOf_iff _ _).1 hp).length_le
      simp only [Index, hp, if_true]
      simp only [List.length_cons] at hle ⊢
      omega
    · simp only [Index, hp]
      rcases ih with h | ⟨h1, h2⟩
      · left
        simp [h]
      · right
        have : ¬ (Index t sub < 0) := by omega
        simp only [Bool.false_eq_true, if_false, this, List.length_cons, Nat.cast_add,
          Nat.cast_one]
        omega

theorem LastIndex_bounds (s sub : Str) :
    LastIndex s sub = -1 ∨ (0 ≤ LastIndex s sub ∧ LastIndex s sub + sub.length ≤ s.length) := by
  induction s with
  | nil =>
    by_cases h : sub = []
    · subst h
      right
      simp [LastIndex]
    · left
      simp [LastIndex, h]
  | cons c t ih =>
    rcases ih with h | ⟨h1, h2⟩
    · by_cases hp : sub.isPrefixOf (c :: t) = true
      · right
        have hle : sub.length ≤ (c :: t).length := ((isPrefixOf_iff _ _).1 hp).length_le
        simp only [LastIndex, h, hp, if_true]
        simp only [List.length_cons] at hle ⊢
        constructor
        · decide
        · have : (0 : Int) ≤ -1 ↔ False := by decide
          simp only [this, if_false]
          omega
      · left
        simp [LastIndex, h, hp]
    · right
      simp only [LastIndex, h1, if_true, List.length_cons, Nat.cast_add, Nat.cast_one]
      omega

theorem slice_total (s : Str) (lo hi : Int) (h0 : 0 ≤ lo) (h1 : lo ≤ hi)
    (h2 : hi ≤ (s.length : Int)) : ∃ m, slice s lo hi = some m := by
  unfold slice
  rw [if_pos ⟨h0, h1, h2⟩]
  exact ⟨_, rfl⟩

theorem extractEmailAddress_total (input : Str) : ∃ a, extractEmailAddress input = some a := by
  unfold extractEmailAddress
  simp only
  split_ifs with h
  · have hb1 := Index_bounds (removeComments (TrimSpace input)) ['<']
    have hb2 := Index_bounds (removeComments (TrimSpace input)) ['>']
    obtain ⟨m, hm⟩ := slice_total (removeComments (TrimSpace input))
      (Index (removeComments (TrimSpace input)) ['<'] + 1)
      (Index (removeComments (TrimSpace input)) ['>']) (by omega) (by omega) (by
        simp only [List.length_singleton, Nat.cast_one] at hb2
        omega)
    rw [hm]
    simp only
    split_ifs
    · exact ⟨_, rfl⟩
    · exact ⟨_, lastBareMatch_eq _⟩
  · exact ⟨_, lastBareMatch_eq _⟩

theorem extractDisplayName_total (input addrSpec : Str) :
    ∃ d, extractDisplayName input addrSpec = some d := by
  unfold extractDisplayName
  simp only
  split_ifs with h
  · obtain ⟨hc, hlt⟩ := h
    have hc2 : 0 ≤ Index (removeComments (Replace input addrSpec [])) [dquote] := by
      simpa [Contains] using hc
    have hb2 := LastIndex_bounds (removeComments (Replace input addrSpec [])) [dquote]
    obtain ⟨m, hm⟩ := slice_total (removeComments (Replace input addrSpec []))
      (Index (removeComments (Replace input addrSpec [])) [dquote] + 1)
      (LastIndex (removeComments (Replace input addrSpec [])) [dquote]) (by omega) (by omega) (by
        simp only [List.length_singleton, Nat.cast_one] at hb2
        omega)
    rw [hm]
    exact ⟨_, rfl⟩
  · rw [Split_head]
    simp only
    split_ifs <;> exact ⟨_, rfl⟩

/-- The four ways `ParseLine` returns. -/
theorem ParseLine_cases (line : Str) :
    (TrimSpace line = [] ∧
      ParseLine line = some ⟨[], [], some "empty line".toList⟩) ∨
    (TrimSpace line ≠ [] ∧ ∃ a d, extractEmailAddress (TrimSpace line) = some a ∧
      extractDisplayName (TrimSpace line) a = some d ∧
      ((a = [] ∧ ParseLine line = some ⟨[], [], some "no email address found".toList⟩) ∨
       (a ≠ [] ∧ MatchString a = false ∧
          ParseLine line = some ⟨a, d, some "invalid email format".toList⟩) ∨
       (a ≠ [] ∧ MatchString a = true ∧ ParseLine line = some ⟨a, d, none⟩))) := by
  by_cases h : TrimSpace line = []
  · left
    exact ⟨h, by simp [ParseLine, h, strPtr]⟩
  · right
    obtain ⟨a, ha⟩ := extractEmailAddress_total (TrimSpace line)
    obtain ⟨d, hd⟩ := extractDisplayName_total (TrimSpace line) a
    refine ⟨h, a, d, ha, hd, ?_⟩
    by_cases h1 : a = []
    · left
      subst h1
      exact ⟨rfl, by simp [ParseLine, h, ha, hd, strPtr]⟩
    · right
      cases h2 : MatchString a
      · left
        exact ⟨h1, rfl, by simp [ParseLine, h, ha, hd, h1, h2, strPtr]⟩
      · right
        exact ⟨h1, rfl, by simp [ParseLine, h, ha, hd, h1, h2]⟩

/-! ## The record invariant and the empty line -/

/-- Claim C1: for every input line `ParseLine` returns a record, and the `Error` of that record
is absent exactly when its `AddrSpec` is non-empty and the pattern of `emailRegex` matches it
as a whole string. -/
theorem C1_error_absent_iff_address_valid (line : Str) :
    ∃ r, ParseLine line = some r ∧
      (r.Error = none ↔ (r.AddrSpec ≠ [] ∧ emailRegexBody.rmatch r.AddrSpec = true)) := by
  rcases ParseLine_cases line with ⟨-, h⟩ | ⟨-, a, d, -, -, ⟨-, h⟩ | ⟨h1, h2, h⟩ | ⟨h1, h2, h⟩⟩
  · exact ⟨_, h, by simp⟩
  · exact ⟨_, h, by simp⟩
  · rw [MatchString_eq] at h2
    exact ⟨_, h, by simp [h2]⟩
  · rw [MatchString_eq] at h2
    exact ⟨_, h, by simp [h1, h2]⟩

/-- Claim C4: for every input line `ParseLine` returns a record whose `Error` is
`"empty line"` exactly when the line is empty after `TrimSpace`, and in that case `AddrSpec`
and `DisplayName` are both empty. -/
theorem C4_empty_line_error_iff_blank (line : Str) :
    ∃ r, ParseLine line = some r ∧
      (r.Error = some "empty line".toList ↔ TrimSpace line = []) ∧
      (TrimSpace line = [] → r.AddrSpec = [] ∧ r.DisplayName = []) := by
  rcases ParseLine_cases line with ⟨h0, h⟩ | ⟨h0, a, d, -, -, ⟨-, h⟩ | ⟨-, -, h⟩ | ⟨-, -, h⟩⟩
  · exact ⟨_, h, by simp [h0], fun _ => ⟨rfl, rfl⟩⟩
  · refine ⟨_, h, ?_, fun h1 => absurd h1 h0⟩
    simp only [h0, iff_false]
    decide
  · refine ⟨_, h, ?_, fun h1 => absurd h1 h0⟩
    simp only [h0, iff_false]
    decide
  · exact ⟨_, h, by simp [h0], fun h1 => absurd h1 h0⟩

/-! ## A bare address -/

theorem extractEmailAddress_bare (a : Str) (ha : DotAtomAddr a) :
    extractEmailAddress a = some a := by
  have hch := dotAtomAddr_chars ha
  have htrim : TrimSpace a = a := TrimSpace_of_no_space a fun c hc => (hch c hc).1
  have hrc : removeComments a = a :=
    removeComments_plain a fun c hc => ⟨(hch c hc).2.1, (hch c hc).2.2.1⟩
  have hlt : Index a ['<'] = -1 :=
    Index_char_none '<' a fun hm => (hch _ hm).2.2.2.2.1 rfl
  unfold extractEmailAddress
  simp only [htrim, hrc, hlt, ne_eq, not_true_eq_false, false_and, if_false]
  rw [lastBareMatch_eq, dotAtomAddr_rmatch ha, if_pos rfl]

theorem Replace_self (a : Str) : Replace a a [] = [] := by
  unfold Replace
  by_cases h : a = []
  · simp [h]
  · have h0 : Index a a = 0 := by simpa using Index_self_append a []
    simp [h, h0]

theorem extractDisplayName_nil : extractDisplayName [] [] = some [] := by
  decide

/-- Claim C3: for every address `a` in unquoted dot-atom form, `ParseLine a` returns `a` as
`AddrSpec`, the empty `DisplayName` and no `Error`. -/
theorem C3_bare_address (a : Str) (ha : DotAtomAddr a) :
    ParseLine a = some ⟨a, [], none⟩ := by
  have hch := dotAtomAddr_chars ha
  have htrim : TrimSpace a = a := TrimSpace_of_no_space a fun c hc => (hch c hc).1
  have hd : extractDisplayName a a = some [] := by
    unfold extractDisplayName
    simp only [Replace_self]
    exact extractDisplayName_nil
  unfold ParseLine
  simp only [htrim, dotAtomAddr_ne_nil ha, if_false, extractEmailAddress_bare a ha, hd,
    dotAtomAddr_matchString ha]
  simp

/-- Witness of claim C3 (the first test of `parser_test.go`): `ParseLine("test@test.com")`. -/
theorem C3_bare_address_witness :
    DotAtomAddr "test@test.com".toList ∧
      ParseLine "test@test.com".toList = some ⟨"test@test.com".toList, [], none⟩ :=
  have h : DotAtomAddr "test@test.com".toList :=
    ⟨"test".toList, "test.com".toList,
      .one ⟨by decide, by decide⟩,
      .more (w := "test".toList) (s := "com".toList) ⟨by decide, by decide⟩
        (.one ⟨by decide, by decide⟩),
      by decide⟩
  ⟨h, C3_bare_address _ h⟩

/-- Claim C5, evaluated on the code: `ParseLine("not-an-email")` returns the empty `AddrSpec`
with the error `"no email address found"`, not the token with `"invalid email format"` that the
fourth test of `parser_test.go` expects. -/
theorem C5_not_an_email_evaluated :
    ParseLine "not-an-email".toList = some ⟨[], [], some "no email address found".toList⟩ ∧
      ParseLine "not-an-email".toList ≠
        some ⟨"not-an-email".toList, [], some "invalid email format".toList⟩ := by
  decide

/-! ## A quoted display name followed by an address in angle brackets -/

/-- The address between the first `<` and the first `>` is extracted when the line is unchanged
by trimming and comment removal and no angle bracket precedes the pair. -/
theorem extractEmailAddress_angle (P a : Str) (ha : DotAtomAddr a)
    (hP : ∀ c ∈ P, c ≠ '<' ∧ c ≠ '>')
    (htrim : TrimSpace (P ++ '<' :: (a ++ ['>'])) = P ++ '<' :: (a ++ ['>']))
    (hrc : removeComments (P ++ '<' :: (a ++ ['>'])) = P ++ '<' :: (a ++ ['>'])) :
    extractEmailAddress (P ++ '<' :: (a ++ ['>'])) = some a := by
  have hch := dotAtomAddr_chars ha
  have hstart : Index (P ++ '<' :: (a ++ ['>'])) ['<'] = P.length :=
    Index_char '<' P _ fun hm => (hP _ hm).1 rfl
  have hend : Index (P ++ '<' :: (a ++ ['>'])) ['>'] = (P.length + 1 + a.length : Nat) := by
    have h := Index_char '>' (P ++ '<' :: a) [] (by
      intro hm
      simp only [List.mem_append, List.mem_cons] at hm
      rcases hm with hm | hm | hm
      · exact (hP _ hm).2 rfl
      · exact absurd hm (by decide)
      · exact (hch _ hm).2.2.2.2.2 rfl)
    have e : (P ++ '<' :: a) ++ '>' :: [] = P ++ '<' :: (a ++ ['>']) := by simp
    rw [e] at h
    rw [h]
    simp only [List.length_append, List.length_cons]
    omega
  have hslice : slice (P ++ '<' :: (a ++ ['>'])) ((P.length : Int) + 1)
      ((P.length + 1 + a.length : Nat) : Int) = some a :=
    slice_middle _ (P ++ ['<']) a ['>'] _ _ (by simp) (by simp) (by simp)
  have hta : TrimSpace a = a := TrimSpace_of_no_space a fun c hc => (hch c hc).1
  have hcond : (P.length : Int) ≠ -1 ∧ ((P.length + 1 + a.length : Nat) : Int) > P.length := by
    constructor <;> omega
  unfold extractEmailAddress
  simp only [htrim, hrc, hstart, hend]
  rw [if_pos hcond, hslice]
  simp only [hta, dotAtomAddr_matchString ha, if_true]

theorem removeComments_quoted_plain (n Y : Str) (hn : ∀ c ∈ n, c ≠ dquote)
    (hY : ∀ c ∈ Y, c ≠ dquote ∧ c ≠ '(') :
    removeComments (dquote :: (n ++ dquote :: Y)) = dquote :: (n ++ dquote :: Y) := by
  have h1 : removeComments (dquote :: (n ++ dquote :: Y)) =
      dquote :: removeCommentsLoop 0 true (n ++ dquote :: Y) := by
    simp [removeComments, removeCommentsLoop]
  have h2 : removeCommentsLoop 0 true (dquote :: Y) =
      dquote :: removeCommentsLoop 0 false Y := by
    simp [removeCommentsLoop]
  have h3 := removeCommentsLoop_outside Y [] hY
  simp only [List.append_nil, removeCommentsLoop] at h3
  rw [h1, removeCommentsLoop_quoted n _ hn, h2, h3]

/-- The display name between the first and the last double quote, with no escapes in it. -/
theorem extractDisplayName_quoted (n a Y : Str) (ha : '@' ∈ a)
    (hn : ∀ c ∈ n, c ≠ dquote ∧ c ≠ backslash ∧ c ≠ '@')
    (hY : ∀ c ∈ Y, c ≠ dquote ∧ c ≠ '(' ∧ c ≠ '@') (R : Str)
    (hR : ∀ c ∈ R, c ≠ dquote ∧ c ≠ '(') :
    extractDisplayName (dquote :: (n ++ dquote :: Y) ++ (a ++ R)) a =
      some (TrimSpace n) := by
  have hrep : Replace (dquote :: (n ++ dquote :: Y) ++ (a ++ R)) a [] =
      dquote :: (n ++ dquote :: (Y ++ R)) := by
    have h := Replace_middle '@' (dquote :: (n ++ dquote :: Y)) a R ha (by
      intro hm
      simp only [List.mem_cons, List.mem_append] at hm
      rcases hm with hm | hm | hm | hm
      · exact absurd hm (by decide)
      · exact (hn _ hm).2.2 rfl
      · exact absurd hm (by decide)
      · exact (hY _ hm).2.2 rfl)
    simpa using h
  have hYR : ∀ c ∈ Y ++ R, c ≠ dquote ∧ c ≠ '(' := by
    intro c hc
    rcases List.mem_append.1 hc with h | h
    · exact ⟨(hY c h).1, (hY c h).2.1⟩
    · exact hR c h
  have hrc := removeComments_quoted_plain n (Y ++ R) (fun c hc => (hn c hc).1) hYR
  have hstart : Index (dquote :: (n ++ dquote :: (Y ++ R))) [dquote] = 0 := by
    simp [Index]
  have hend : LastIndex (dquote :: (n ++ dquote :: (Y ++ R))) [dquote] =
      ((n.length + 1 : Nat) : Int) := by
    have h := LastIndex_char dquote (dquote :: n) (Y ++ R) fun hm => (hYR _ hm).1 rfl
    simpa using h
  have hslice : slice (dquote :: (n ++ dquote :: (Y ++ R))) ((0 : Int) + 1)
      ((n.length + 1 : Nat) : Int) = some n :=
    slice_middle _ [dquote] n (dquote :: (Y ++ R)) _ _ (by simp) (by simp) (by
      simp only [List.length_singleton, Nat.cast_add, Nat.cast_one]
      omega)
  have hcond : Contains (dquote :: (n ++ dquote :: (Y ++ R))) [dquote] = true ∧
      ((n.length + 1 : Nat) : Int) > 0 := by
    constructor
    · simp [Contains, hstart]
    · omega
  unfold extractDisplayName
  simp only [hrep, hrc, hstart, hend]
  rw [if_pos hcond, hslice]
  simp only [unescapeDisplayName, unescapeLoop_plain n fun c hc => (hn c hc).2.1]

/-- Claim C2: for every display name `n` without double quote, backslash, angle bracket or `@`
and every address `a` in unquoted dot-atom form, `ParseLine` applied to `"n" <a>` returns `a` as
`AddrSpec`, `n` trimmed of surrounding white space as `DisplayName`, and no `Error`. -/
theorem C2_quoted_name_angle_address (n a : Str)
    (hn : ∀ c ∈ n, c ≠ dquote ∧ c ≠ backslash ∧ c ≠ '<' ∧ c ≠ '>' ∧ c ≠ '@')
    (ha : DotAtomAddr a) :
    ParseLine ([dquote] ++ n ++ [dquote, ' ', '<'] ++ a ++ ['>']) =
      some ⟨a, TrimSpace n, none⟩ := by
  have hch := dotAtomAddr_chars ha
  have hline : [dquote] ++ n ++ [dquote, ' ', '<'] ++ a ++ ['>'] =
      dquote :: ((n ++ dquote :: ' ' :: '<' :: a) ++ ['>']) := by simp
  have hline1 : dquote :: ((n ++ dquote :: ' ' :: '<' :: a) ++ ['>']) =
      (dquote :: (n ++ [dquote, ' '])) ++ '<' :: (a ++ ['>']) := by simp
  have hline2 : dquote :: ((n ++ dquote :: ' ' :: '<' :: a) ++ ['>']) =
      dquote :: (n ++ dquote :: [' ', '<']) ++ (a ++ ['>']) := by simp
  have hline3 : dquote :: ((n ++ dquote :: ' ' :: '<' :: a) ++ ['>']) =
      dquote :: (n ++ dquote :: (' ' :: '<' :: (a ++ ['>']))) := by simp
  have htrim : TrimSpace (dquote :: ((n ++ dquote :: ' ' :: '<' :: a) ++ ['>'])) =
      dquote :: ((n ++ dquote :: ' ' :: '<' :: a) ++ ['>']) :=
    TrimSpace_bracket dquote '>' _ (by decide) (by decide)
  have hrc : removeComments (dquote :: ((n ++ dquote :: ' ' :: '<' :: a) ++ ['>'])) =
      dquote :: ((n ++ dquote :: ' ' :: '<' :: a) ++ ['>']) := by
    rw [hline3]
    refine removeComments_quoted_plain n _ (fun c hc => (hn c hc).1) ?_
    intro c hc
    simp only [List.mem_cons, List.mem_append, List.mem_singleton] at hc
    rcases hc with rfl | rfl | hc | hc
    · decide
    · decide
    · exact ⟨(hch c hc).2.1, (hch c hc).2.2.1⟩
    · rcases hc with rfl | hc
      · decide
      · simp at hc
  have haddr : extractEmailAddress (dquote :: ((n ++ dquote :: ' ' :: '<' :: a) ++ ['>'])) =
      some a := by
    have hP : ∀ c ∈ dquote :: (n ++ [dquote, ' ']), c ≠ '<' ∧ c ≠ '>' := by
      intro c hc
      simp only [List.mem_cons, List.mem_append, List.mem_singleton] at hc
      rcases hc with rfl | hc | rfl | rfl | hc
      · decide
      · exact ⟨(hn c hc).2.2.1, (hn c hc).2.2.2.1⟩
      · decide
      · decide
      · simp at hc
    have h := extractEmailAddress_angle (dquote :: (n ++ [dquote, ' '])) a ha hP
      (by rw [← hline1]; exact htrim) (by rw [← hline1]; exact hrc)
    rw [hline1]
    exact h
  have hname : extractDisplayName (dquote :: ((n ++ dquote :: ' ' :: '<' :: a) ++ ['>'])) a =
      some (TrimSpace n) := by
    rw [hline2]
    refine extractDisplayName_quoted n a [' ', '<'] (dotAtomAddr_has_at ha)
      (fun c hc => ⟨(hn c hc).1, (hn c hc).2.1, (hn c hc).2.2.2.2⟩) (by decide) ['>'] (by decide)
  rw [hline]
  unfold ParseLine
  simp only [htrim, haddr, hname, dotAtomAddr_ne_nil ha, dotAtomAddr_matchString ha]
  simp

/-- Witness of claim C2 (the second test of `parser_test.go`):
`ParseLine("\"John Doe\" <john@example.com>")`. -/
theorem C2_quoted_name_angle_address_witness :
    (∀ c ∈ "John Doe".toList,
        c ≠ dquote ∧ c ≠ backslash ∧ c ≠ '<' ∧ c ≠ '>' ∧ c ≠ '@') ∧
      DotAtomAddr "john@example.com".toList ∧
      ParseLine "\"John Doe\" <john@example.com>".toList =
        some ⟨"john@example.com".toList, "John Doe".toList, none⟩ := by
  have hn : ∀ c ∈ "John Doe".toList,
      c ≠ dquote ∧ c ≠ backslash ∧ c ≠ '<' ∧ c ≠ '>' ∧ c ≠ '@' := by decide
  have ha : DotAtomAddr "john@example.com".toList :=
    ⟨"john".toList, "example.com".toList,
      .one ⟨by decide, by decide⟩,
      .more (w := "example".toList) (s := "com".toList) ⟨by decide, by decide⟩
        (.one ⟨by decide, by decide⟩),
      by decide⟩
  have e1 : [dquote] ++ "John Doe".toList ++ [dquote, ' ', '<'] ++ "john@example.com".toList ++
      ['>'] = "\"John Doe\" <john@example.com>".toList := by decide
  have e2 : TrimSpace "John Doe".toList = "John Doe".toList := by decide
  have h := C2_quoted_name_angle_address _ _ hn ha
  rw [e1, e2] at h
  exact ⟨hn, ha, h⟩

/-! ## Lines with comments, and lines without an address -/

/-- Claim C6, evaluated on the code: on `(note) user@example.com (trailing)` the text left by
trimming and then removing the comments keeps the blanks around the address, the anchored
pattern does not match it, and `ParseLine` returns the empty `AddrSpec` with the error
`"no email address found"`; likewise for the format `(comments) email@domain.com` that the
comment on `ParseLine` lists as handled. -/
theorem C6_commented_line_evaluated :
    removeComments (TrimSpace "(note) user@example.com (trailing)".toList) =
        " user@example.com ".toList ∧
      ParseLine "(note) user@example.com (trailing)".toList =
        some ⟨[], [], some "no email address found".toList⟩ ∧
      ParseLine "(comments) email@domain.com".toList =
        some ⟨[], [], some "no email address found".toList⟩ := by
  refine ⟨?_, ?_, ?_⟩ <;> decide

/-- Claim C7 as stated fails: for the line `"John Doe" <john>` no address is extracted and
display-name extraction with the empty address yields `John Doe`, but the record that
`ParseLine` returns has the empty `DisplayName`. -/
theorem C7_display_name_counterexample :
    TrimSpace "\"John Doe\" <john>".toList ≠ [] ∧
      extractEmailAddress (TrimSpace "\"John Doe\" <john>".toList) = some [] ∧
      extractDisplayName (TrimSpace "\"John Doe\" <john>".toList) [] =
        some "John Doe".toList ∧
      (ParseLine "\"John Doe\" <john>".toList).map EmailParts.DisplayName = some [] ∧
      (ParseLine "\"John Doe\" <john>".toList).map EmailParts.DisplayName ≠
        extractDisplayName (TrimSpace "\"John Doe\" <john>".toList) [] := by
  refine ⟨?_, ?_, ?_, ?_, ?_⟩ <;> decide

/-- Claim C7, amended: for every non-blank line from which no address is extracted,
`ParseLine` returns the record with the error `"no email address found"` and with `AddrSpec`
and `DisplayName` both empty. -/
theorem C7_no_address_record (line : Str) (hline : TrimSpace line ≠ [])
    (haddr : extractEmailAddress (TrimSpace line) = some []) :
    ParseLine line = some ⟨[], [], some "no email address found".toList⟩ := by
  rcases ParseLine_cases line with ⟨h0, -⟩ | ⟨-, a, d, ha, -, ⟨-, h⟩ | ⟨h1, -, -⟩ | ⟨h1, -, -⟩⟩
  · exact absurd h0 hline
  · exact h
  · rw [haddr] at ha
    exact absurd (Option.some.inj ha).symm h1
  · rw [haddr] at ha
    exact absurd (Option.some.inj ha).symm h1

/-- Witness of the amended claim C7: the line `"John Doe" <john>`. -/
theorem C7_no_address_record_witness :
    TrimSpace "\"John Doe\" <john>".toList ≠ [] ∧
      extractEmailAddress (TrimSpace "\"John Doe\" <john>".toList) = some [] ∧
      ParseLine "\"John Doe\" <john>".toList =
        some ⟨[], [], some "no email address found".toList⟩ :=
  ⟨by decide, by decide, C7_no_address_record _ (by decide) (by decide)⟩

/-! ## The comment stripper -/

/-- A second pass from the top-level state of the same quote flag changes nothing: the
characters written by the first pass never open a comment. -/
theorem removeCommentsLoop_idem (s : Str) :
    ∀ (d : Nat) (q : Bool), (q = true → d = 0) →
      removeCommentsLoop 0 q (removeCommentsLoop d q s) = removeCommentsLoop d q s := by
  induction s with
  | nil => intro d q _; rfl
  | cons r rest ih =>
    intro d q hq
    by_cases hd : d = 0
    · subst hd
      by_cases h1 : r = dquote
      · subst h1
        have := ih 0 (!q) (fun _ => rfl)
        simp [removeCommentsLoop, this]
      · cases q with
        | true =>
          have := ih 0 true (fun _ => rfl)
          simp [removeCommentsLoop, h1, this]
        | false =>
          by_cases h2 : r = '('
          · subst h2
            have := ih 1 false (by simp)
            simpa [removeCommentsLoop, h1] using this
          · have := ih 0 false (fun _ => rfl)
            simp [removeCommentsLoop, h1, h2, this]
    · have hqf : q = false := by
        cases q with
        | true => exact absurd (hq rfl) hd
        | false => rfl
      subst hqf
      by_cases h2 : r = '('
      · subst h2
        have := ih (d + 1) false (by simp)
        simpa [removeCommentsLoop, hd] using this
      · by_cases h3 : r = ')'
        · subst h3
          have := ih (d - 1) false (by simp)
          have hpos : 0 < d := Nat.pos_of_ne_zero hd
          simpa [removeCommentsLoop, hd, hpos] using this
        · have := ih d false (by simp)
          simpa [removeCommentsLoop, hd, h2, h3] using this

/-- Claim C8: comment stripping is idempotent,
`removeComments (removeComments s) = removeComments s` for every string `s`. -/
theorem C8_removeComments_idempotent (s : Str) :
    removeComments (removeComments s) = removeComments s :=
  removeCommentsLoop_idem s 0 false (by simp)

/-- Claim C9 as stated fails: the stray `)` of `a)b` is not dropped. -/
theorem C9_stray_paren_counterexample :
    removeComments ("a".toList ++ ")".toList ++ "b".toList) ≠ "a".toList ++ "b".toList := by
  decide

/-- Claim C9, amended: an unbalanced `)` at top level is kept by the comment stripper; for all
strings `a` and `b` without parentheses and double quotes,
`removeComments (a ++ ")" ++ b) = a ++ ")" ++ b`. -/
theorem C9_stray_paren_kept (a b : Str)
    (ha : ∀ c ∈ a, c ≠ '(' ∧ c ≠ ')' ∧ c ≠ dquote)
    (hb : ∀ c ∈ b, c ≠ '(' ∧ c ≠ ')' ∧ c ≠ dquote) :
    removeComments (a ++ ")".toList ++ b) = a ++ ")".toList ++ b := by
  apply removeComments_plain
  intro c hc
  simp only [List.mem_append] at hc
  rcases hc with (hc | hc) | hc
  · exact ⟨(ha c hc).2.2, (ha c hc).1⟩
  · have : c = ')' := by simpa using hc
    subst this
    decide
  · exact ⟨(hb c hc).2.2, (hb c hc).1⟩

/-- Witness of the amended claim C9: `removeComments("a)b") = "a)b"`. -/
theorem C9_stray_paren_kept_witness :
    (∀ c ∈ "a".toList, c ≠ '(' ∧ c ≠ ')' ∧ c ≠ dquote) ∧
      (∀ c ∈ "b".toList, c ≠ '(' ∧ c ≠ ')' ∧ c ≠ dquote) ∧
      removeComments ("a".toList ++ ")".toList ++ "b".toList) =
        "a".toList ++ ")".toList ++ "b".toList :=
  ⟨by decide, by decide, C9_stray_paren_kept _ _ (by decide) (by decide)⟩

/-- Inside a comment the loop writes nothing and only follows the parentheses, as long as the
depth stays positive. -/
theorem removeCommentsLoop_comment (b rest : Str) :
    ∀ d : Nat, (∀ p, p <+: b → p.count ')' < d + p.count '(') →
      removeCommentsLoop d false (b ++ rest) =
        removeCommentsLoop (d + b.count '(' - b.count ')') false rest := by
  induction b with
  | nil => intro d _; simp
  | cons x b ih =>
    intro d H
    have hd : 0 < d := by simpa using H [] List.nil_prefix
    have hd0 : d ≠ 0 := Nat.pos_iff_ne_zero.1 hd
    by_cases h2 : x = '('
    · subst h2
      have H2 : ∀ p, p <+: b → p.count ')' < d + 1 + p.count '(' := by
        intro p hp
        have := H ('(' :: p) (List.cons_prefix_cons.2 ⟨rfl, hp⟩)
        simp only [List.count_cons] at this
        simp at this
        omega
      have e := ih (d + 1) H2
      have hcnt : d + 1 + b.count '(' - b.count ')' =
          d + ('(' :: b).count '(' - ('(' :: b).count ')' := by
        simp only [List.count_cons]
        simp
        omega
      rw [← hcnt, ← e]
      simp [removeCommentsLoop, hd0]
    · by_cases h3 : x = ')'
      · subst h3
        have hd2 : 1 < d := by
          have := H [')'] (List.cons_prefix_cons.2 ⟨rfl, List.nil_prefix⟩)
          simpa using this
        have H2 : ∀ p, p <+: b → p.count ')' < d - 1 + p.count '(' := by
          intro p hp
          have := H (')' :: p) (List.cons_prefix_cons.2 ⟨rfl, hp⟩)
          simp only [List.count_cons] at this
          simp at this
          omega
        have e := ih (d - 1) H2
        have hcnt : d - 1 + b.count '(' - b.count ')' =
            d + (')' :: b).count '(' - (')' :: b).count ')' := by
          simp only [List.count_cons]
          simp
          omega
        rw [← hcnt, ← e]
        simp [removeCommentsLoop, hd0, hd]
      · have H2 : ∀ p, p <+: b → p.count ')' < d + p.count '(' := by
          intro p hp
          have := H (x :: p) (List.cons_prefix_cons.2 ⟨rfl, hp⟩)
          simp only [List.count_cons] at this
          simpa [h2, h3] using this
        have e := ih d H2
        have hcnt : d + b.count '(' - b.count ')' =
            d + (x :: b).count '(' - (x :: b).count ')' := by
          simp only [List.count_cons]
          simp [h2, h3]
        rw [← hcnt, ← e]
        simp [removeCommentsLoop, hd0, h2, h3]

/-- Claim C10: a balanced parenthesised comment outside quotes is removed entirely; for all
strings `a` and `c` without parentheses and double quotes and every string `b` with balanced
parentheses (double quotes allowed), `removeComments (a ++ "(" ++ b ++ ")" ++ c) = a ++ c`. -/
theorem C10_balanced_comment_removed (a b c : Str)
    (ha : ∀ x ∈ a, x ≠ '(' ∧ x ≠ ')' ∧ x ≠ dquote) (hb : balanced b = true)
    (hc : ∀ x ∈ c, x ≠ '(' ∧ x ≠ ')' ∧ x ≠ dquote) :
    removeComments (a ++ "(".toList ++ b ++ ")".toList ++ c) = a ++ c := by
  simp only [balanced, Bool.and_eq_true, List.all_eq_true, List.mem_inits,
    decide_eq_true_eq] at hb
  obtain ⟨hpre, htot⟩ := hb
  have hform : a ++ "(".toList ++ b ++ ")".toList ++ c = a ++ ('(' :: (b ++ (')' :: c))) := by
    simp
  have h1 : removeCommentsLoop 0 false ('(' :: (b ++ (')' :: c))) =
      removeCommentsLoop 1 false (b ++ (')' :: c)) := by
    have hne : '(' ≠ dquote := by decide
    simp [removeCommentsLoop, hne]
  have h2 := removeCommentsLoop_comment b (')' :: c) 1 (fun p hp => by
    have := hpre p hp
    omega)
  have h3 : 1 + b.count '(' - b.count ')' = 1 := by omega
  have h4 : removeCommentsLoop 1 false (')' :: c) = removeCommentsLoop 0 false c := by
    simp [removeCommentsLoop]
  have h5 : removeCommentsLoop 0 false c = c := by
    have := removeCommentsLoop_outside c [] fun x hx => ⟨(hc x hx).2.2, (hc x hx).1⟩
    simpa [removeCommentsLoop] using this
  rw [hform]
  unfold removeComments
  rw [removeCommentsLoop_outside a _ fun x hx => ⟨(ha x hx).2.2, (ha x hx).1⟩, h1, h2, h3, h4,
    h5]

/-- Witness of claim C10: a comment with a nested comment and a double quote in it,
`removeComments("ab(c(d)\"e)fg") = "abfg"`. -/
theorem C10_balanced_comment_removed_witness :
    (∀ x ∈ "ab".toList, x ≠ '(' ∧ x ≠ ')' ∧ x ≠ dquote) ∧
      balanced "c(d)\"e".toList = true ∧
      (∀ x ∈ "fg".toList, x ≠ '(' ∧ x ≠ ')' ∧ x ≠ dquote) ∧
      removeComments ("ab".toList ++ "(".toList ++ "c(d)\"e".toList ++ ")".toList ++
        "fg".toList) = "ab".toList ++ "fg".toList :=
  ⟨by decide, by decide, by decide,
    C10_balanced_comment_removed _ _ _ (by decide) (by decide) (by decide)⟩

/-! ## Quoted regions -/

theorem mem_of_mem_TrimSpace {c : Char} {s : Str} (h : c ∈ TrimSpace s) : c ∈ s := by
  have h1 : TrimSpace s <+: s.dropWhile isSpace := List.rdropWhile_prefix isSpace _
  exact (List.dropWhile_suffix isSpace).subset (h1.subset h)

theorem TrimSpace_idem (s : Str) : TrimSpace (TrimSpace s) = TrimSpace s := by
  have e : TrimSpace s = (s.dropWhile isSpace).rdropWhile isSpace := rfl
  have hd : (TrimSpace s).dropWhile isSpace = TrimSpace s := by
    have hpre : TrimSpace s <+: s.dropWhile isSpace := List.rdropWhile_prefix isSpace _
    cases ht : TrimSpace s with
    | nil => rfl
    | cons c t =>
      rw [ht] at hpre
      cases hs : s.dropWhile isSpace with
      | nil =>
        rw [hs] at hpre
        simp at hpre
      | cons x y =>
        rw [hs] at hpre
        have hcx : c = x := (List.cons_prefix_cons.1 hpre).1
        have hx : ¬ isSpace x = true := by
          have := List.head_dropWhile_not isSpace s (by simp [hs])
          simpa [hs] using this
        subst hcx
        simp [List.dropWhile, hx]
  show ((TrimSpace s).dropWhile isSpace).rdropWhile isSpace = TrimSpace s
  rw [hd, e, List.rdropWhile_idempotent]

theorem mem_of_mem_removeCommentsLoop {c : Char} (s : Str) :
    ∀ (d : Nat) (q : Bool), c ∈ removeCommentsLoop d q s → c ∈ s := by
  induction s with
  | nil => intro d q h; simp [removeCommentsLoop] at h
  | cons r rest ih =>
    intro d q h
    simp only [removeCommentsLoop] at h
    split_ifs at h
    · rcases List.mem_cons.1 h with h | h
      · exact h ▸ List.mem_cons_self _ _
      · exact List.mem_cons_of_mem _ (ih _ _ h)
    · exact List.mem_cons_of_mem _ (ih _ _ h)
    · exact List.mem_cons_of_mem _ (ih _ _ h)
    · rcases List.mem_cons.1 h with h | h
      · exact h ▸ List.mem_cons_self _ _
      · exact List.mem_cons_of_mem _ (ih _ _ h)
    · exact List.mem_cons_of_mem _ (ih _ _ h)

/-- Without an opening parenthesis nothing is removed, whatever the quoting. -/
theorem removeCommentsLoop_no_lparen (s : Str) (h : ∀ c ∈ s, c ≠ '(') :
    ∀ q : Bool, removeCommentsLoop 0 q s = s := by
  induction s with
  | nil => intro q; rfl
  | cons r rest ih =>
    intro q
    have hr := h r (by simp)
    have ih2 := ih (fun c hc => h c (by simp [hc]))
    by_cases h1 : r = dquote
    · simp [removeCommentsLoop, h1, ih2]
    · simp [removeCommentsLoop, h1, hr, ih2]

/-- Claim C11: parentheses inside a double-quoted region are preserved; for all strings `a` and
`b` without parentheses and double quotes and every string `q` without double quote,
`removeComments (a ++ "\"" ++ q ++ "\"" ++ b) = a ++ "\"" ++ q ++ "\"" ++ b`. -/
theorem C11_quoted_parens_preserved (a q b : Str)
    (ha : ∀ c ∈ a, c ≠ '(' ∧ c ≠ ')' ∧ c ≠ dquote) (hq : ∀ c ∈ q, c ≠ dquote)
    (hb : ∀ c ∈ b, c ≠ '(' ∧ c ≠ ')' ∧ c ≠ dquote) :
    removeComments (a ++ [dquote] ++ q ++ [dquote] ++ b) = a ++ [dquote] ++ q ++ [dquote] ++ b := by
  have hform : a ++ [dquote] ++ q ++ [dquote] ++ b = a ++ (dquote :: (q ++ dquote :: b)) := by
    simp
  have h1 : removeCommentsLoop 0 false (dquote :: (q ++ dquote :: b)) =
      dquote :: removeCommentsLoop 0 true (q ++ dquote :: b) := by
    simp [removeCommentsLoop]
  have h2 : removeCommentsLoop 0 true (dquote :: b) =
      dquote :: removeCommentsLoop 0 false b := by
    simp [removeCommentsLoop]
  have h3 : removeCommentsLoop 0 false b = b :=
    removeCommentsLoop_no_lparen b (fun c hc => (hb c hc).1) false
  rw [hform]
  unfold removeComments
  rw [removeCommentsLoop_outside a _ fun c hc => ⟨(ha c hc).2.2, (ha c hc).1⟩, h1,
    removeCommentsLoop_quoted q _ hq, h2, h3]

/-- Witness of claim C11: `removeComments("a\"(b)c)\"d") = "a\"(b)c)\"d"`. -/
theorem C11_quoted_parens_preserved_witness :
    (∀ c ∈ "a".toList, c ≠ '(' ∧ c ≠ ')' ∧ c ≠ dquote) ∧
      (∀ c ∈ "(b)c)".toList, c ≠ dquote) ∧
      (∀ c ∈ "d".toList, c ≠ '(' ∧ c ≠ ')' ∧ c ≠ dquote) ∧
      removeComments ("a".toList ++ [dquote] ++ "(b)c)".toList ++ [dquote] ++ "d".toList) =
        "a".toList ++ [dquote] ++ "(b)c)".toList ++ [dquote] ++ "d".toList :=
  ⟨by decide, by decide, by decide,
    C11_quoted_parens_preserved _ _ _ (by decide) (by decide) (by decide)⟩

/-! ## The pair of angle brackets -/

theorem dropWhile_append_cons (x y : Str) (c : Char) (hc : isSpace c = false) :
    (x ++ c :: y).dropWhile isSpace = x.dropWhile isSpace ++ c :: y := by
  induction x with
  | nil => simp [List.dropWhile, hc]
  | cons d t ih =>
    by_cases hd : isSpace d = true
    · simp [List.dropWhile, hd, ih]
    · simp [List.dropWhile, hd]

/-- Trimming a text with two non-blank characters in it keeps them and what is between them. -/
theorem TrimSpace_sandwich (p m r : Str) (c d : Char) (hc : isSpace c = false)
    (hd : isSpace d = false) :
    ∃ p2 r2, TrimSpace (p ++ c :: (m ++ d :: r)) = p2 ++ c :: (m ++ d :: r2) ∧
      (∀ x ∈ p2, x ∈ p) ∧ (∀ x ∈ r2, x ∈ r) := by
  refine ⟨p.dropWhile isSpace, (r.reverse.dropWhile isSpace).reverse, ?_,
    fun x hx => (List.dropWhile_suffix isSpace).subset hx,
    fun x hx => List.mem_reverse.1 ((List.dropWhile_suffix isSpace).subset (List.mem_reverse.1 hx))⟩
  unfold TrimSpace
  rw [dropWhile_append_cons p _ c hc]
  have e1 : (p.dropWhile isSpace ++ c :: (m ++ d :: r)).reverse =
      r.reverse ++ d :: (m.reverse ++ c :: (p.dropWhile isSpace).reverse) := by simp
  rw [e1, dropWhile_append_cons _ _ d hd]
  simp

/-- Claim C12, amended: angle-bracket extraction uses the first `<` and the first `>` of the
line; for every line without parentheses, if the first `>` of the line comes after the first
`<` and the text between them, trimmed, matches the validator, then `extractEmailAddress`
returns that trimmed text. -/
theorem C12_angle_pair_first_gt_of_line (p m r : Str)
    (hpar : ∀ c ∈ p ++ '<' :: (m ++ '>' :: r), c ≠ '(' ∧ c ≠ ')')
    (hp : '<' ∉ p) (hp2 : '>' ∉ p) (hm : '>' ∉ m)
    (hv : MatchString (TrimSpace m) = true) :
    extractEmailAddress (p ++ '<' :: (m ++ '>' :: r)) = some (TrimSpace m) := by
  obtain ⟨p2, r2, htrim, hp2sub, hr2sub⟩ :=
    TrimSpace_sandwich p m r '<' '>' (by decide) (by decide)
  have hrc : removeComments (p2 ++ '<' :: (m ++ '>' :: r2)) = p2 ++ '<' :: (m ++ '>' :: r2) := by
    refine removeCommentsLoop_no_lparen _ ?_ false
    intro c hc
    rw [← htrim] at hc
    exact (hpar c (mem_of_mem_TrimSpace hc)).1
  have hstart : Index (p2 ++ '<' :: (m ++ '>' :: r2)) ['<'] = p2.length :=
    Index_char '<' p2 _ fun h => hp (hp2sub _ h)
  have hend : Index (p2 ++ '<' :: (m ++ '>' :: r2)) ['>'] = (p2.length + 1 + m.length : Nat) := by
    have h := Index_char '>' (p2 ++ '<' :: m) r2 (by
      intro h
      simp only [List.mem_append, List.mem_cons] at h
      rcases h with h | h | h
      · exact hp2 (hp2sub _ h)
      · exact absurd h (by decide)
      · exact hm h)
    have e : (p2 ++ '<' :: m) ++ '>' :: r2 = p2 ++ '<' :: (m ++ '>' :: r2) := by simp
    rw [e] at h
    rw [h]
    simp only [List.length_append, List.length_cons]
    omega
  have hslice : slice (p2 ++ '<' :: (m ++ '>' :: r2)) ((p2.length : Int) + 1)
      ((p2.length + 1 + m.length : Nat) : Int) = some m :=
    slice_middle _ (p2 ++ ['<']) m ('>' :: r2) _ _ (by simp) (by simp) (by simp)
  have hcond : (p2.length : Int) ≠ -1 ∧ ((p2.length + 1 + m.length : Nat) : Int) > p2.length := by
    constructor <;> omega
  unfold extractEmailAddress
  simp only [htrim, hrc, hstart, hend]
  rw [if_pos hcond, hslice]
  simp only [hv, if_true]

/-- Witness of the amended claim C12: the line `x <a@b.com> y>`. -/
theorem C12_angle_pair_first_gt_of_line_witness :
    (∀ c ∈ "x ".toList ++ '<' :: (" a@b.com ".toList ++ '>' :: " y>".toList),
        c ≠ '(' ∧ c ≠ ')') ∧
      '<' ∉ "x ".toList ∧ '>' ∉ "x ".toList ∧ '>' ∉ " a@b.com ".toList ∧
      MatchString (TrimSpace " a@b.com ".toList) = true ∧
      extractEmailAddress ("x ".toList ++ '<' :: (" a@b.com ".toList ++ '>' :: " y>".toList)) =
        some (TrimSpace " a@b.com ".toList) :=
  ⟨by decide, by decide, by decide, by decide, by decide,
    C12_angle_pair_first_gt_of_line _ _ _ (by decide) (by decide) (by decide) (by decide)
      (by decide)⟩

/-- Claim C12 as stated fails: in the line `> <a@b.com>` the text between the first `<` and the
first `>` after it is a valid address, but `extractEmailAddress` compares the offset of the
first `>` of the whole line with that of the first `<` and returns no address. -/
theorem C12_gt_before_lt_counterexample :
    (∀ c ∈ "> ".toList ++ '<' :: ("a@b.com".toList ++ '>' :: []), c ≠ '(' ∧ c ≠ ')') ∧
      '<' ∉ "> ".toList ∧ '>' ∉ "a@b.com".toList ∧
      MatchString (TrimSpace "a@b.com".toList) = true ∧
      extractEmailAddress ("> ".toList ++ '<' :: ("a@b.com".toList ++ '>' :: [])) = some [] ∧
      extractEmailAddress ("> ".toList ++ '<' :: ("a@b.com".toList ++ '>' :: [])) ≠
        some (TrimSpace "a@b.com".toList) := by
  refine ⟨?_, ?_, ?_, ?_, ?_, ?_⟩ <;> decide

/-! ## The escape decoder -/

theorem unescapeLoop_append_plain (a rest : Str) (ha : backslash ∉ a) :
    unescapeLoop false (a ++ rest) = a ++ unescapeLoop false rest := by
  induction a with
  | nil => rfl
  | cons c t ih =>
    simp only [List.mem_cons, not_or] at ha
    have hc : c ≠ backslash := fun h => ha.1 h.symm
    simp [unescapeLoop, hc, ih ha.2]

/-- Claim C13: `unescapeDisplayName` deletes an escaping backslash, keeps the character after
it and trims white space; for all backslash-free strings `a`, `b` and every character `c`,
`unescapeDisplayName (a ++ "\\" ++ c ++ b) = TrimSpace (a ++ c ++ b)`, and a trailing lone
backslash is dropped, `unescapeDisplayName (a ++ "\\") = TrimSpace a`. -/
theorem C13_unescape_one_escape (a b : Str) (c : Char) (ha : backslash ∉ a)
    (hb : backslash ∉ b) :
    unescapeDisplayName (a ++ backslash :: c :: b) = TrimSpace (a ++ c :: b) ∧
      unescapeDisplayName (a ++ [backslash]) = TrimSpace a := by
  have hb2 : unescapeLoop false b = b := unescapeLoop_plain b fun x hx h => hb (h ▸ hx)
  constructor
  · unfold unescapeDisplayName
    rw [unescapeLoop_append_plain a _ ha]
    simp [unescapeLoop, hb2]
  · unfold unescapeDisplayName
    rw [unescapeLoop_append_plain a _ ha]
    simp [unescapeLoop]

/-- Witness of claim C13: `a\"b` decodes to `a"b`, and `x\` decodes to `x`. -/
theorem C13_unescape_one_escape_witness :
    backslash ∉ "a".toList ∧ backslash ∉ "b".toList ∧ backslash ∉ "x".toList ∧
      unescapeDisplayName ("a".toList ++ backslash :: dquote :: "b".toList) =
        "a".toList ++ dquote :: "b".toList ∧
      unescapeDisplayName ("x".toList ++ [backslash]) = "x".toList := by
  have h1 := (C13_unescape_one_escape "a".toList "b".toList dquote (by decide) (by decide)).1
  have h2 := (C13_unescape_one_escape "x".toList [] 'x' (by decide) (by decide)).2
  have e1 : TrimSpace ("a".toList ++ dquote :: "b".toList) = "a".toList ++ dquote :: "b".toList := by
    decide
  have e2 : TrimSpace "x".toList = "x".toList := by decide
  rw [e1] at h1
  rw [e2] at h2
  exact ⟨by decide, by decide, by decide, h1, h2⟩

/-! ## A bare-word display name followed by an address in angle brackets -/

theorem TrimSpace_dropWhile (s : Str) : TrimSpace (s.dropWhile isSpace) = TrimSpace s := by
  unfold TrimSpace
  rw [List.dropWhile_idempotent]

theorem TrimSpace_append_blank (s : Str) : TrimSpace (s ++ [' ']) = TrimSpace s := by
  have hsp : isSpace ' ' = true := by decide
  show ((s ++ [' ']).dropWhile isSpace).rdropWhile isSpace =
    (s.dropWhile isSpace).rdropWhile isSpace
  by_cases hall : ∀ x ∈ s, isSpace x = true
  · have h1 : (s ++ [' ']).dropWhile isSpace = [] := by
      rw [List.dropWhile_eq_nil_iff]
      intro x hx
      rcases List.mem_append.1 hx with h | h
      · exact hall x h
      · simp only [List.mem_singleton] at h
        rw [h]
        exact hsp
    have h2 : s.dropWhile isSpace = [] := by
      rw [List.dropWhile_eq_nil_iff]
      exact hall
    rw [h1, h2]
  · have h1 : (s ++ [' ']).dropWhile isSpace = s.dropWhile isSpace ++ [' '] := by
      clear hsp
      induction s with
      | nil => exact absurd (fun x hx => by simp at hx) hall
      | cons d t ih =>
        by_cases hd : isSpace d = true
        · have hall2 : ¬ ∀ x ∈ t, isSpace x = true := by
            intro h
            apply hall
            intro x hx
            rcases List.mem_cons.1 hx with h3 | h3
            · rw [h3]
              exact hd
            · exact h x h3
          simp [List.dropWhile, hd, ih hall2]
        · simp [List.dropWhile, hd]
    rw [h1, List.rdropWhile_concat_pos _ _ _ hsp]

/-- The display name before the first `<`, when the line has no double quote. -/
theorem extractDisplayName_bare (P a R : Str) (ha : '@' ∈ a)
    (hP : ∀ c ∈ P, c ≠ dquote ∧ c ≠ '(' ∧ c ≠ '@' ∧ c ≠ '<')
    (hR : ∀ c ∈ R, c ≠ dquote ∧ c ≠ '(') :
    extractDisplayName (P ++ '<' :: (a ++ R)) a = some (TrimSpace P) := by
  have hrep : Replace (P ++ '<' :: (a ++ R)) a [] = P ++ '<' :: R := by
    have h := Replace_middle '@' (P ++ ['<']) a R ha (by
      intro hm
      simp only [List.mem_append, List.mem_singleton] at hm
      rcases hm with hm | hm
      · exact (hP _ hm).2.2.1 rfl
      · exact absurd hm (by decide))
    simpa using h
  have hchars : ∀ c ∈ P ++ '<' :: R, c ≠ dquote ∧ c ≠ '(' := by
    intro c hc
    simp only [List.mem_append, List.mem_cons] at hc
    rcases hc with hc | rfl | hc
    · exact ⟨(hP c hc).1, (hP c hc).2.1⟩
    · decide
    · exact hR c hc
  have hrc : removeComments (P ++ '<' :: R) = P ++ '<' :: R := removeComments_plain _ hchars
  have hq : Index (P ++ '<' :: R) [dquote] = -1 :=
    Index_char_none dquote _ fun hm => (hchars _ hm).1 rfl
  have hlt : Index (P ++ '<' :: R) ['<'] = P.length :=
    Index_char '<' P R fun hm => (hP _ hm).2.2.2 rfl
  have hcond : ¬ (Contains (P ++ '<' :: R) [dquote] = true ∧
      LastIndex (P ++ '<' :: R) [dquote] > Index (P ++ '<' :: R) [dquote]) := by
    intro h
    have := h.1
    simp [Contains, hq] at this
  have hne : P ≠ P ++ '<' :: R := by
    intro h
    have := congrArg List.length h
    simp at this
  unfold extractDisplayName
  simp only [hrep, hrc]
  rw [if_neg hcond, Split_head, hlt]
  have hnn : ¬ ((P.length : Int) < 0) := by omega
  simp only [hnn, if_false, Int.toNat_ofNat, List.take_left', ne_eq, hne, not_false_eq_true,
    if_true]

/-- Claim C14: bare-word display names are recovered; for every name `n` without double quote,
angle bracket, parenthesis or `@` and every address `a` in unquoted dot-atom form, `ParseLine`
applied to `n <a>` returns `a` as `AddrSpec`, `n` trimmed of surrounding white space as
`DisplayName`, and no `Error`. -/
theorem C14_bare_name_angle_address (n a : Str)
    (hn : ∀ c ∈ n, c ≠ dquote ∧ c ≠ '<' ∧ c ≠ '>' ∧ c ≠ '(' ∧ c ≠ ')' ∧ c ≠ '@')
    (ha : DotAtomAddr a) :
    ParseLine (n ++ " <".toList ++ a ++ ">".toList) = some ⟨a, TrimSpace n, none⟩ := by
  have hch := dotAtomAddr_chars ha
  have hform : n ++ " <".toList ++ a ++ ">".toList = (n ++ [' ']) ++ '<' :: (a ++ ['>']) := by
    simp
  have hP : ∀ c ∈ (n ++ [' ']).dropWhile isSpace,
      c ≠ dquote ∧ c ≠ '<' ∧ c ≠ '>' ∧ c ≠ '(' ∧ c ≠ ')' ∧ c ≠ '@' := by
    intro c hc
    have hc2 := (List.dropWhile_suffix isSpace).subset hc
    rcases List.mem_append.1 hc2 with h | h
    · exact hn c h
    · simp only [List.mem_singleton] at h
      subst h
      decide
  have htrim : TrimSpace ((n ++ [' ']) ++ '<' :: (a ++ ['>'])) =
      (n ++ [' ']).dropWhile isSpace ++ '<' :: (a ++ ['>']) := by
    unfold TrimSpace
    rw [dropWhile_append_cons _ _ '<' (by decide)]
    have hgt : isSpace '>' = false := by decide
    simp [List.dropWhile, hgt]
  have htrim2 : TrimSpace ((n ++ [' ']).dropWhile isSpace ++ '<' :: (a ++ ['>'])) =
      (n ++ [' ']).dropWhile isSpace ++ '<' :: (a ++ ['>']) := by
    rw [← htrim, TrimSpace_idem]
  have hrc : removeComments ((n ++ [' ']).dropWhile isSpace ++ '<' :: (a ++ ['>'])) =
      (n ++ [' ']).dropWhile isSpace ++ '<' :: (a ++ ['>']) := by
    apply removeComments_plain
    intro c hc
    simp only [List.mem_append, List.mem_cons, List.mem_singleton] at hc
    rcases hc with hc | rfl | hc | hc
    · exact ⟨(hP c hc).1, (hP c hc).2.2.2.1⟩
    · decide
    · exact ⟨(hch c hc).2.1, (hch c hc).2.2.1⟩
    · rcases hc with rfl | hc
      · decide
      · simp at hc
  have haddr := extractEmailAddress_angle ((n ++ [' ']).dropWhile isSpace) a ha
    (fun c hc => ⟨(hP c hc).2.1, (hP c hc).2.2.1⟩) htrim2 hrc
  have hname := extractDisplayName_bare ((n ++ [' ']).dropWhile isSpace) a ['>']
    (dotAtomAddr_has_at ha)
    (fun c hc => ⟨(hP c hc).1, (hP c hc).2.2.2.1, (hP c hc).2.2.2.2.2, (hP c hc).2.1⟩)
    (by decide)
  rw [TrimSpace_dropWhile, TrimSpace_append_blank] at hname
  rw [hform]
  unfold ParseLine
  simp only [htrim, haddr, hname, dotAtomAddr_ne_nil ha, dotAtomAddr_matchString ha]
  simp

/-- Witness of claim C14: `ParseLine("John Doe <john@example.com>")`. -/
theorem C14_bare_name_angle_address_witness :
    (∀ c ∈ "John Doe".toList,
        c ≠ dquote ∧ c ≠ '<' ∧ c ≠ '>' ∧ c ≠ '(' ∧ c ≠ ')' ∧ c ≠ '@') ∧
      DotAtomAddr "john@example.com".toList ∧
      ParseLine "John Doe <john@example.com>".toList =
        some ⟨"john@example.com".toList, "John Doe".toList, none⟩ := by
  have hn : ∀ c ∈ "John Doe".toList,
      c ≠ dquote ∧ c ≠ '<' ∧ c ≠ '>' ∧ c ≠ '(' ∧ c ≠ ')' ∧ c ≠ '@' := by decide
  have ha : DotAtomAddr "john@example.com".toList :=
    ⟨"john".toList, "example.com".toList,
      .one ⟨by decide, by decide⟩,
      .more (w := "example".toList) (s := "com".toList) ⟨by decide, by decide⟩
        (.one ⟨by decide, by decide⟩),
      by decide⟩
  have e1 : "John Doe".toList ++ " <".toList ++ "john@example.com".toList ++ ">".toList =
      "John Doe <john@example.com>".toList := by decide
  have e2 : TrimSpace "John Doe".toList = "John Doe".toList := by decide
  have h := C14_bare_name_angle_address _ _ hn ha
  rw [e1, e2] at h
  exact ⟨hn, ha, h⟩

/-! ## What the validator accepts and rejects -/

theorem allCls_deriv (P : Char → Prop) (c : Char) :
    ∀ r : Regex, allCls P r → allCls P (r.deriv c) := by
  intro r
  induction r with
  | nothing => intro _; trivial
  | empty => intro _; trivial
  | cls p =>
    intro _
    simp only [Regex.deriv]
    split_ifs <;> trivial
  | alt a b iha ihb => exact fun h => ⟨iha h.1, ihb h.2⟩
  | seq a b iha ihb =>
    intro h
    simp only [Regex.deriv]
    split_ifs
    · exact ⟨⟨iha h.1, h.2⟩, ihb h.2⟩
    · exact ⟨iha h.1, h.2⟩
  | star a iha => exact fun h => ⟨iha h, h⟩

theorem allCls_head (P : Char → Prop) (c : Char) :
    ∀ (r : Regex) (t : Str), allCls P r → (r.deriv c).rmatch t = true → P c := by
  intro r
  induction r with
  | nothing =>
    intro t _ h
    simp [Regex.deriv, Regex.rmatch_nothing] at h
  | empty =>
    intro t _ h
    simp [Regex.deriv, Regex.rmatch_nothing] at h
  | cls p =>
    intro t hr h
    by_cases hp : p c = true
    · exact hr c hp
    · simp [Regex.deriv, hp, Regex.rmatch_nothing] at h
  | alt a b iha ihb =>
    intro t hr h
    simp only [Regex.deriv, Regex.rmatch_alt, Bool.or_eq_true] at h
    rcases h with h | h
    · exact iha t hr.1 h
    · exact ihb t hr.2 h
  | seq a b iha ihb =>
    intro t hr h
    by_cases hn : a.nullable = true
    · simp only [Regex.deriv, hn, if_true, Regex.rmatch_alt, Bool.or_eq_true] at h
      rcases h with h | h
      · obtain ⟨u, v, -, hu, -⟩ := (Regex.rmatch_seq _ _ _).1 h
        exact iha u hr.1 hu
      · exact ihb t hr.2 h
    · simp only [Regex.deriv, hn] at h
      obtain ⟨u, v, -, hu, -⟩ := (Regex.rmatch_seq _ _ _).1 h
      exact iha u hr.1 hu
  | star a iha =>
    intro t hr h
    simp only [Regex.deriv] at h
    obtain ⟨u, v, -, hu, -⟩ := (Regex.rmatch_seq _ _ _).1 h
    exact iha u hr hu

/-- Every character of a matched string is admitted by a class of the expression. -/
theorem rmatch_allCls (P : Char → Prop) :
    ∀ (s : Str) (r : Regex), allCls P r → r.rmatch s = true → ∀ c ∈ s, P c := by
  intro s
  induction s with
  | nil => intro r _ _ c hc; simp at hc
  | cons x t ih =>
    intro r hr h c hc
    have h2 : (r.deriv x).rmatch t = true := h
    rcases List.mem_cons.1 hc with hc | hc
    · rw [hc]
      exact allCls_head P x r t hr h2
    · exact ih (r.deriv x) (allCls_deriv P x r hr) h2 c hc

theorem chr_ne_blank (x : Char) (hx : x ≠ ' ') : allCls (fun c => c ≠ ' ') (.chr x) := by
  intro c hc
  simp only [beq_iff_eq] at hc
  rw [hc]
  exact hx

theorem atext_ne_blank (c : Char) (h : atext c = true) : c ≠ ' ' := by
  rintro rfl
  revert h
  decide

theorem dtext_ne_blank (c : Char) (h : dtext c = true) : c ≠ ' ' := by
  rintro rfl
  revert h
  decide

theorem dotAtom_allCls_ne_blank : allCls (fun c => c ≠ ' ') dotAtom :=
  ⟨⟨atext_ne_blank, atext_ne_blank⟩, chr_ne_blank '.' (by decide), atext_ne_blank,
    atext_ne_blank⟩

theorem domainLiteral_allCls_ne_blank : allCls (fun c => c ≠ ' ') domainLiteral :=
  ⟨chr_ne_blank '[' (by decide), dtext_ne_blank, chr_ne_blank ']' (by decide)⟩

theorem domainPart_allCls_ne_blank :
    allCls (fun c => c ≠ ' ') (Regex.seq (.chr '@') (.alt dotAtom domainLiteral)) :=
  ⟨chr_ne_blank '@' (by decide), dotAtom_allCls_ne_blank, domainLiteral_allCls_ne_blank⟩

/-- A match of the pattern is a local part followed by `@` and a domain; a quoted local part
starts with a double quote. -/
theorem emailRegexBody_split (s : Str) (h : emailRegexBody.rmatch s = true) :
    ∃ l d, s = l ++ d ∧ (l.head? = some dquote ∨ dotAtom.rmatch l = true) ∧
      (Regex.seq (.chr '@') (.alt dotAtom domainLiteral)).rmatch d = true := by
  obtain ⟨l, d, hs, hl, hd⟩ := (Regex.rmatch_seq _ _ _).1 h
  refine ⟨l, d, hs, ?_, hd⟩
  rw [Regex.rmatch_alt, Bool.or_eq_true] at hl
  rcases hl with hl | hl
  · left
    obtain ⟨t, u, rfl, ht, -⟩ := (Regex.rmatch_seq _ _ _).1 hl
    obtain ⟨c, rfl, hc⟩ := (Regex.rmatch_cls _ _).1 ht
    simp only [beq_iff_eq] at hc
    simp [hc]
  · exact Or.inr hl

/-- Claim C15: the validator rejects a space outside a quoted local part; for every string
whose first character is not a double quote and which contains a space character,
`emailRegex` does not match. -/
theorem C15_blank_rejected_unless_quoted (s : Str) (hq : s.head? ≠ some dquote)
    (hsp : ' ' ∈ s) : MatchString s = false := by
  rw [MatchString_eq, Bool.eq_false_iff]
  intro h
  obtain ⟨l, d, rfl, hl, hd⟩ := emailRegexBody_split s h
  have hd2 : ∀ c ∈ d, c ≠ ' ' :=
    rmatch_allCls _ d _ domainPart_allCls_ne_blank hd
  rcases hl with hl | hl
  · apply hq
    cases l with
    | nil => simp at hl
    | cons x t => simpa using hl
  · have hl2 : ∀ c ∈ l, c ≠ ' ' := rmatch_allCls _ l _ dotAtom_allCls_ne_blank hl
    rcases List.mem_append.1 hsp with h1 | h1
    · exact hl2 _ h1 rfl
    · exact hd2 _ h1 rfl

/-- Witness of claim C15: `emailRegex` does not match `john doe@example.com`. -/
theorem C15_blank_rejected_unless_quoted_witness :
    "john doe@example.com".toList.head? ≠ some dquote ∧
      ' ' ∈ "john doe@example.com".toList ∧
      MatchString "john doe@example.com".toList = false :=
  ⟨by decide, by decide, C15_blank_rejected_unless_quoted _ (by decide) (by decide)⟩

theorem dtext_of_range (c : Char)
    (h : (0x21 ≤ c.toNat ∧ c.toNat ≤ 0x5a) ∨ (0x5e ≤ c.toNat ∧ c.toNat ≤ 0x7e)) :
    dtext c = true := by
  unfold dtext foldClass inRanges
  simp only [List.any_cons, List.any_nil, Bool.or_false, Bool.or_eq_true, Bool.and_eq_true,
    decide_eq_true_eq]
  exact Or.inl h

/-- Claim C16: the validator accepts bracketed domain literals; for every local part `l` in
dot-atom form and every string `d`, possibly empty, whose characters lie in the ranges `!` to
`Z` (0x21 to 0x5a) or `^` to `~` (0x5e to 0x7e), `emailRegex` matches `l ++ "@[" ++ d ++ "]"`. -/
theorem C16_domain_literal_accepted (l d : Str) (hl : DotAtom l)
    (hd : ∀ c ∈ d, (0x21 ≤ c.toNat ∧ c.toNat ≤ 0x5a) ∨ (0x5e ≤ c.toNat ∧ c.toNat ≤ 0x7e)) :
    MatchString (l ++ "@[".toList ++ d ++ "]".toList) = true := by
  have hform : l ++ "@[".toList ++ d ++ "]".toList = l ++ (['@'] ++ (['['] ++ (d ++ [']']))) := by
    simp
  have hlit : domainLiteral.rmatch (['['] ++ (d ++ [']'])) = true :=
    Regex.rmatch_seq_append (Regex.rmatch_chr '[')
      (Regex.rmatch_seq_append (Regex.rmatch_star_cls fun c hc => dtext_of_range c (hd c hc))
        (Regex.rmatch_chr ']'))
  rw [MatchString_eq, hform]
  refine Regex.rmatch_seq_append ?_ (Regex.rmatch_seq_append (Regex.rmatch_chr '@') ?_)
  · rw [Regex.rmatch_alt, dotAtom_rmatch hl, Bool.or_true]
  · rw [Regex.rmatch_alt, hlit, Bool.or_true]

/-- Witness of claim C16: `emailRegex` matches `user@[192.168.0.1]`, and `user@[]`. -/
theorem C16_domain_literal_accepted_witness :
    DotAtom "user".toList ∧
      (∀ c ∈ "192.168.0.1".toList,
        (0x21 ≤ c.toNat ∧ c.toNat ≤ 0x5a) ∨ (0x5e ≤ c.toNat ∧ c.toNat ≤ 0x7e)) ∧
      MatchString ("user".toList ++ "@[".toList ++ "192.168.0.1".toList ++ "]".toList) = true ∧
      MatchString ("user".toList ++ "@[".toList ++ [] ++ "]".toList) = true :=
  have hl : DotAtom "user".toList := .one ⟨by decide, by decide⟩
  ⟨hl, by decide, C16_domain_literal_accepted _ _ hl (by decide),
    C16_domain_literal_accepted _ [] hl (by simp)⟩

/-! ## Totality, and the reach of the bare-address scan -/

/-- Claim C17: `ParseLine` is total and never aborts; for every input it returns exactly one
record, `extractEmailAddress` and `extractDisplayName` return for all their inputs, so their
slice expressions are in range, and so are the index expressions `Split(...)[0]` and
`matches[len(matches)-1]`. -/
theorem C17_ParseLine_total_in_range (line : Str) :
    (∃! r, ParseLine line = some r) ∧
      (∃ a, extractEmailAddress line = some a) ∧
      (∀ addrSpec, ∃ d, extractDisplayName line addrSpec = some d) ∧
      (∀ sep, ∃ before, (Split line sep)[0]? = some before) ∧
      (∃ m, lastBareMatch line = some m) := by
  refine ⟨?_, extractEmailAddress_total line, extractDisplayName_total line,
    fun sep => ⟨_, Split_head line sep⟩, ⟨_, lastBareMatch_eq line⟩⟩
  have hex : ∃ r, ParseLine line = some r := by
    rcases ParseLine_cases line with ⟨-, h⟩ | ⟨-, a, d, -, -, ⟨-, h⟩ | ⟨-, -, h⟩ | ⟨-, -, h⟩⟩ <;>
      exact ⟨_, h⟩
  obtain ⟨r, hr⟩ := hex
  refine ⟨r, hr, ?_⟩
  intro r2 hr2
  rw [hr] at hr2
  exact (Option.some.inj hr2).symm

/-- What `extractEmailAddress` returns is empty or matched by the pattern. -/
theorem extractEmailAddress_valid (input : Str) :
    ∃ a, extractEmailAddress input = some a ∧ (a = [] ∨ MatchString a = true) := by
  have hbare : ∀ t : Str, ∃ a, lastBareMatch t = some a ∧ (a = [] ∨ MatchString a = true) := by
    intro t
    refine ⟨_, lastBareMatch_eq t, ?_⟩
    split_ifs with h
    · right
      rw [MatchString_eq]
      exact h
    · exact Or.inl rfl
  unfold extractEmailAddress
  simp only
  split_ifs with h
  · have hb1 := Index_bounds (removeComments (TrimSpace input)) ['<']
    have hb2 := Index_bounds (removeComments (TrimSpace input)) ['>']
    obtain ⟨m, hm⟩ := slice_total (removeComments (TrimSpace input))
      (Index (removeComments (TrimSpace input)) ['<'] + 1)
      (Index (removeComments (TrimSpace input)) ['>']) (by omega) (by omega) (by
        simp only [List.length_singleton, Nat.cast_one] at hb2
        omega)
    rw [hm]
    simp only
    split_ifs with hv
    · exact ⟨_, rfl, Or.inr hv⟩
    · exact hbare _
  · exact hbare _

/-- Claim C18: the branch `"invalid email format"` of `ParseLine` is unreachable; for every
input `extractEmailAddress` returns the empty string or a string that `emailRegex` matches, and
the `Error` of the record that `ParseLine` returns is never `"invalid email format"`: it is
absent, `"empty line"` or `"no email address found"`. -/
theorem C18_invalid_format_unreachable (line : Str) :
    (∃ a, extractEmailAddress line = some a ∧ (a = [] ∨ MatchString a = true)) ∧
      ∃ r, ParseLine line = some r ∧ r.Error ≠ some "invalid email format".toList ∧
        (r.Error = none ∨ r.Error = some "empty line".toList ∨
          r.Error = some "no email address found".toList) := by
  refine ⟨extractEmailAddress_valid line, ?_⟩
  rcases ParseLine_cases line with ⟨-, h⟩ | ⟨-, a, d, ha, -, ⟨-, h⟩ | ⟨h1, h2, -⟩ | ⟨-, -, h⟩⟩
  · exact ⟨_, h, by decide, Or.inr (Or.inl rfl)⟩
  · exact ⟨_, h, by decide, Or.inr (Or.inr rfl)⟩
  · exfalso
    obtain ⟨b, hb, hv⟩ := extractEmailAddress_valid (TrimSpace line)
    rw [ha] at hb
    have hab : a = b := Option.some.inj hb
    subst hab
    rcases hv with hv | hv
    · exact h1 hv
    · rw [h2] at hv
      exact absurd hv (by decide)
  · exact ⟨_, h, by simp, Or.inl rfl⟩

/-- Claim C19: the pattern being anchored at both ends, the bare-address scan finds at most one
match, the whole string; for every input without `<`, `extractEmailAddress` returns
`removeComments (TrimSpace input)` when the pattern matches that entire string and the empty
string otherwise, and in the latter case `ParseLine` reports `"no email address found"` for a
non-blank line. -/
theorem C19_bare_scan_whole_string (input : Str) (h : '<' ∉ input) :
    (FindAllString (removeComments (TrimSpace input)) =
        if emailRegexBody.rmatch (removeComments (TrimSpace input)) = true
        then [removeComments (TrimSpace input)] else []) ∧
      (extractEmailAddress input =
        some (if emailRegexBody.rmatch (removeComments (TrimSpace input)) = true
          then removeComments (TrimSpace input) else [])) ∧
      (TrimSpace input ≠ [] →
        emailRegexBody.rmatch (removeComments (TrimSpace input)) = false →
        ParseLine input = some ⟨[], [], some "no email address found".toList⟩) := by
  have hext : ∀ t : Str, '<' ∉ t → extractEmailAddress t =
      some (if emailRegexBody.rmatch (removeComments (TrimSpace t)) = true
        then removeComments (TrimSpace t) else []) := by
    intro t ht
    have hlt : Index (removeComments (TrimSpace t)) ['<'] = -1 :=
      Index_char_none '<' _ fun hm =>
        ht (mem_of_mem_TrimSpace (mem_of_mem_removeCommentsLoop _ _ _ hm))
    unfold extractEmailAddress
    simp only [hlt, ne_eq, not_true_eq_false, false_and, if_false]
    exact lastBareMatch_eq _
  refine ⟨FindAllString_eq _, hext input h, ?_⟩
  intro hne hno
  have h2 := hext (TrimSpace input) fun hm => h (mem_of_mem_TrimSpace hm)
  rw [TrimSpace_idem, hno] at h2
  simp only [Bool.false_eq_true, if_false] at h2
  rcases ParseLine_cases input with ⟨h0, -⟩ | ⟨-, a, d, ha, -, ⟨-, hr⟩ | ⟨h1, -, -⟩ | ⟨h1, -, -⟩⟩
  · exact absurd h0 hne
  · exact hr
  · rw [h2] at ha
    exact absurd (Option.some.inj ha).symm h1
  · rw [h2] at ha
    exact absurd (Option.some.inj ha).symm h1

/-- Witness of claim C19: for `hello a@b.com` no address is extracted and `ParseLine` reports
`"no email address found"`. -/
theorem C19_bare_scan_whole_string_witness :
    '<' ∉ "hello a@b.com".toList ∧
      FindAllString (removeComments (TrimSpace "hello a@b.com".toList)) = [] ∧
      extractEmailAddress "hello a@b.com".toList = some [] ∧
      ParseLine "hello a@b.com".toList =
        some ⟨[], [], some "no email address found".toList⟩ := by
  have hlt : '<' ∉ "hello a@b.com".toList := by decide
  have hno : emailRegexBody.rmatch (removeComments (TrimSpace "hello a@b.com".toList)) =
      false := by decide
  obtain ⟨h1, h2, h3⟩ := C19_bare_scan_whole_string "hello a@b.com".toList hlt
  rw [hno] at h1 h2
  exact ⟨hlt, h1, h2, h3 (by decide) hno⟩

/-- Claim C20: angle-bracket detection ignores quoting; the line `"<a@b.com>"@c.com` is
accepted by the validator as a whole string, yet `ParseLine` returns the `AddrSpec` `a@b.com`,
which is not the line, the `DisplayName` `<>`, and no `Error`. -/
theorem C20_quoted_angle_pair_taken :
    MatchString "\"<a@b.com>\"@c.com".toList = true ∧
      "a@b.com".toList ≠ "\"<a@b.com>\"@c.com".toList ∧
      ParseLine "\"<a@b.com>\"@c.com".toList =
        some ⟨"a@b.com".toList, "<>".toList, none⟩ := by
  refine ⟨?_, ?_, ?_⟩ <;> decide

end EmailParser
